import Mathlib

/-!
Verification of the `epd-waveshare-async` e-paper display driver crate.

The definitions below are shallow embeddings of the Rust source:

* `src/buffer.rs` — `BinaryBuffer` (a byte-packed 1-bit-per-pixel
  framebuffer), its `DrawTarget` operations `draw_iter`, `fill_contiguous`
  and `fill_solid`, the `Gray2SplitBuffer` two-plane buffer, and the
  `Rotate` coordinate rotations.
* `src/hw.rs` — the `BusyWait` and `CommandDataSend` protocol primitives.
* `src/epd7in5_v2.rs` — that panel's own `BusyWait` implementation.
* `src/epd2in9.rs` — the type-state display session (sleep/wake).

Machine integers: byte values are modelled as `Nat` (with a `< 256`
well-formedness predicate where byte values matter), pixel coordinates as
`Int` (the Rust code uses `i32`; theorems that need the arithmetic to be
overflow-free carry explicit range hypotheses), sizes as `Nat` (`u32`).
-/

namespace Epd

/-- `embedded_graphics::prelude::Size` (u32 fields). -/
structure Size where
  width : Nat
  height : Nat
deriving DecidableEq, Repr

/-- `embedded_graphics::prelude::Point` (i32 fields). -/
structure Point where
  x : Int
  y : Int
deriving DecidableEq, Repr

/-- `embedded_graphics::primitives::Rectangle`. -/
structure Rectangle where
  topLeft : Point
  size : Size
deriving DecidableEq, Repr

/-- `embedded_graphics::pixelcolor::BinaryColor`. -/
inductive BinaryColor where
  | Off
  | On
deriving DecidableEq, Repr

/-- Point-set membership of a point in a rectangle (`Rectangle::contains`). -/
def Rectangle.containsPt (r : Rectangle) (p : Point) : Prop :=
  r.topLeft.x ≤ p.x ∧ p.x < r.topLeft.x + r.size.width ∧
  r.topLeft.y ≤ p.y ∧ p.y < r.topLeft.y + r.size.height

instance (r : Rectangle) (p : Point) : Decidable (r.containsPt p) := by
  unfold Rectangle.containsPt; infer_instance

/-- `Rectangle::zero()`. -/
def Rectangle.zero : Rectangle := ⟨⟨0, 0⟩, ⟨0, 0⟩⟩

/-- `embedded_graphics::primitives::Rectangle::intersection` (external crate,
    embedded by its documented semantics: the largest rectangle contained in
    both; `Rectangle::zero()` when either rectangle's `bottom_right()` is
    `None` (zero size) or the two do not overlap). -/
def Rectangle.intersection (a b : Rectangle) : Rectangle :=
  if a.size.width = 0 ∨ a.size.height = 0 ∨ b.size.width = 0 ∨ b.size.height = 0 then
    Rectangle.zero
  else
    let tlx := max a.topLeft.x b.topLeft.x
    let tly := max a.topLeft.y b.topLeft.y
    let brx := min (a.topLeft.x + a.size.width - 1) (b.topLeft.x + b.size.width - 1)
    let bry := min (a.topLeft.y + a.size.height - 1) (b.topLeft.y + b.size.height - 1)
    if tlx ≤ brx ∧ tly ≤ bry then
      ⟨⟨tlx, tly⟩, ⟨(brx - tlx + 1).toNat, (bry - tly + 1).toNat⟩⟩
    else
      Rectangle.zero

/-! ### The packed binary framebuffer (`buffer.rs`, `BinaryBuffer`) -/

/-- `buffer.rs`: `binary_buffer_length` — `(size.width / 8) * size.height`. -/
def binaryBufferLength (size : Size) : Nat := size.width / 8 * size.height

/-- `buffer.rs`: `struct BinaryBuffer` (the const generic length `L` becomes
    the length of the `data` list). -/
structure BinaryBuffer where
  size : Size
  bytesPerRow : Nat
  data : List Nat
deriving DecidableEq, Repr

/-- `BinaryBuffer::new`: all pixels `Off`, `bytes_per_row = width / 8`. -/
def BinaryBuffer.new (dimensions : Size) : BinaryBuffer :=
  { size := dimensions
    bytesPerRow := dimensions.width / 8
    data := List.replicate (binaryBufferLength dimensions) 0 }

/-- `Dimensions::bounding_box` for `BinaryBuffer`. -/
def BinaryBuffer.boundingBox (buf : BinaryBuffer) : Rectangle :=
  ⟨⟨0, 0⟩, buf.size⟩

/-- The invariants `BinaryBuffer::new` establishes (debug-asserted in the
    source): width a multiple of 8, `bytes_per_row = width / 8`, data length
    `bytes_per_row * height`, and every backing value an actual byte. -/
def BinaryBuffer.wf (buf : BinaryBuffer) : Prop :=
  buf.size.width % 8 = 0 ∧
  buf.bytesPerRow = buf.size.width / 8 ∧
  buf.data.length = buf.bytesPerRow * buf.size.height ∧
  ∀ b ∈ buf.data, b < 256

instance (buf : BinaryBuffer) : Decidable buf.wf := by
  unfold BinaryBuffer.wf; infer_instance

/-- The single-bit store shared by `draw_iter`, `fill_contiguous` and
    `fill_solid` (`buffer.rs`):
    `data[byte] |= 0x80 >> bit` for `On`, `data[byte] &= !(0x80 >> bit)`
    for `Off` (`!` on a `u8` is xor with `0xFF`). -/
def writeBit (data : List Nat) (byteIndex bitIndex : Nat) (color : BinaryColor) : List Nat :=
  let b := data.getD byteIndex 0
  data.set byteIndex
    (if color = .On then b ||| (128 >>> bitIndex) else b &&& (255 ^^^ (128 >>> bitIndex)))

/-- The body of `BinaryBuffer::draw_iter` for one pixel (`buffer.rs` lines
    102-118): skip out-of-bounds points, otherwise store one bit at
    `byte = x/8 + y*bytes_per_row`, `bit = x%8`. -/
def BinaryBuffer.setPixelRaw (buf : BinaryBuffer) (p : Point) (color : BinaryColor) :
    BinaryBuffer :=
  if p.x < 0 ∨ (buf.size.width : Int) ≤ p.x ∨ p.y < 0 ∨ (buf.size.height : Int) ≤ p.y then
    buf
  else
    { buf with
        data := writeBit buf.data (p.x.toNat / 8 + p.y.toNat * buf.bytesPerRow) (p.x.toNat % 8)
          color }

/-- `BinaryBuffer::draw_iter` over a list of pixels. -/
def BinaryBuffer.drawIter (buf : BinaryBuffer) (pixels : List (Point × BinaryColor)) :
    BinaryBuffer :=
  pixels.foldl (fun b pc => b.setPixelRaw pc.1 pc.2) buf

/-- Bit `pos` of the packed backing store, in the buffer's own MSB-first
    convention: byte `pos / 8`, bit `0x80 >> (pos % 8)`. -/
def getBitAbs (data : List Nat) (pos : Nat) : Bool :=
  (data.getD (pos / 8) 0).testBit (7 - pos % 8)

/-- Reading one pixel back from the packed data, at the address `draw_iter`
    writes: byte `x/8 + y*bytes_per_row`, bit `0x80 >> (x % 8)`. -/
def BinaryBuffer.getPixel (buf : BinaryBuffer) (x y : Nat) : BinaryColor :=
  if (buf.data.getD (x / 8 + y * buf.bytesPerRow) 0).testBit (7 - x % 8) then .On else .Off

/-! #### `fill_contiguous` (`buffer.rs` lines 123-188)

The color iterator is modelled as a `List BinaryColor`; `next()` is
head/tail. The embedding returns the updated bytes together with the
remaining (unconsumed) colors, so consumption is observable. -/

/-- The inner `for x in x_start..x_end` loop of `fill_contiguous`: an
    out-of-bounds `x` consumes one color (if any) without writing or
    advancing the bit cursor; an in-bounds `x` either returns early
    (iterator exhausted, final `Bool` is `true`) or writes one bit and
    advances. The fuel is the number of remaining `x` values. -/
def fillContigX (W : Nat) (data : List Nat) (colors : List BinaryColor)
    (byteIndex bitIndex : Nat) (x : Int) :
    Nat → List Nat × List BinaryColor × Nat × Nat × Bool
  | 0 => (data, colors, byteIndex, bitIndex, false)
  | n + 1 =>
    if x < 0 ∨ (W : Int) ≤ x then
      fillContigX W data colors.tail byteIndex bitIndex (x + 1) n
    else
      match colors with
      | [] => (data, [], byteIndex, bitIndex, true)
      | c :: rest =>
        let data' := writeBit data byteIndex bitIndex c
        if bitIndex + 1 = 8 then fillContigX W data' rest (byteIndex + 1) 0 (x + 1) n
        else fillContigX W data' rest byteIndex (bitIndex + 1) (x + 1) n

/-- The outer `for y in y_start..y_end` loop of `fill_contiguous`: an
    out-of-bounds row consumes (up to) `x_end - x_start` colors and leaves
    the byte cursor alone; an in-bounds row advances the cursor by
    `row_start_byte_offset`, runs the x loop, and (unless it returned
    early) advances by `row_end_byte_offset`. -/
def fillContigRows (W H : Nat) (xStart xEnd : Int)
    (rowStartByteOffset rowEndByteOffset : Nat) (data : List Nat)
    (colors : List BinaryColor) (byteIndex : Nat) (y : Int) :
    Nat → List Nat × List BinaryColor
  | 0 => (data, colors)
  | n + 1 =>
    if y < 0 ∨ (H : Int) ≤ y then
      fillContigRows W H xStart xEnd rowStartByteOffset rowEndByteOffset data
        (colors.drop (xEnd - xStart).toNat) byteIndex (y + 1) n
    else
      let bi := byteIndex + rowStartByteOffset
      let bitIndex := (max xStart 0).toNat % 8
      let r := fillContigX W data colors bi bitIndex xStart (xEnd - xStart).toNat
      if r.2.2.2.2 then (r.1, r.2.1)
      else
        fillContigRows W H xStart xEnd rowStartByteOffset rowEndByteOffset r.1 r.2.1
          (r.2.2.1 + rowEndByteOffset) (y + 1) n

/-- `BinaryBuffer::fill_contiguous`. Returns the buffer together with the
    remaining colors of the iterator. -/
def BinaryBuffer.fillContiguous (buf : BinaryBuffer) (area : Rectangle)
    (colors : List BinaryColor) : BinaryBuffer × List BinaryColor :=
  let drawable := buf.boundingBox.intersection area
  if drawable.size.width = 0 ∨ drawable.size.height = 0 then (buf, colors)
  else
    let yStart := area.topLeft.y
    let yEnd := area.topLeft.y + area.size.height
    let xStart := area.topLeft.x
    let xEnd := area.topLeft.x + area.size.width
    let byteIndex := (max yStart 0).toNat * buf.bytesPerRow
    let rowStartByteOffset := (max xStart 0).toNat / 8
    let rowEndByteOffset := buf.bytesPerRow - (min xEnd (buf.size.width : Int)).toNat / 8
    let r := fillContigRows buf.size.width buf.size.height xStart xEnd rowStartByteOffset
      rowEndByteOffset buf.data colors byteIndex yStart (yEnd - yStart).toNat
    ({ buf with data := r.1 }, r.2)

/-! #### `fill_solid` (`buffer.rs` lines 190-265) -/

/-- `set_next_bit!()` applied `n` times: store a bit, advance the bit
    cursor, roll over to the next byte after bit 7. -/
def setNextBits (color : BinaryColor) (data : List Nat) (byteIndex bitIndex : Nat) :
    Nat → List Nat × Nat × Nat
  | 0 => (data, byteIndex, bitIndex)
  | n + 1 =>
    let data' := writeBit data byteIndex bitIndex color
    if bitIndex + 1 = 8 then setNextBits color data' (byteIndex + 1) 0 n
    else setNextBits color data' byteIndex (bitIndex + 1) n

/-- The fast path of `fill_solid`: `n` whole bytes stored as `0xFF`/`0x00`. -/
def storeFullBytes (color : BinaryColor) (data : List Nat) (byteIndex : Nat) :
    Nat → List Nat × Nat
  | 0 => (data, byteIndex)
  | n + 1 =>
    storeFullBytes color (data.set byteIndex (if color = .On then 255 else 0)) (byteIndex + 1) n

/-- One iteration of the row loop of `fill_solid` (the body of
    `for _y in y_start..y_end` up to, but not including, the trailing
    `byte_index += row_end_byte_offset`): enters with the row's base byte
    cursor, adds `row_start_byte_offset = x_start / 8`, sets the leading
    partial byte bit-by-bit, stores the fully covered bytes whole, sets the
    trailing partial byte bit-by-bit (or, with no full bytes, sets the whole
    row bit-by-bit), and returns the bytes plus the cursor. -/
def fillSolidRowBody (xStart xEnd xFullBytesStart xFullBytesEnd numFull : Nat)
    (color : BinaryColor) (data : List Nat) (byteIndex : Nat) : List Nat × Nat :=
  let bi := byteIndex + xStart / 8
  let bitIndex := xStart % 8
  if numFull = 0 then
    let r := setNextBits color data bi bitIndex (xEnd - xStart)
    (r.1, r.2.1)
  else
    let r1 := setNextBits color data bi bitIndex (xFullBytesStart - xStart)
    let r2 := storeFullBytes color r1.1 r1.2.1 numFull
    let r3 := setNextBits color r2.1 r2.2 (xFullBytesEnd % 8) (xEnd - xFullBytesEnd)
    (r3.1, r3.2.1)

/-- The row loop of `fill_solid`. All coordinates come from the (clamped,
    hence non-negative) intersection, so they are `Nat`s here; the one
    signed subtraction in the source, `x_full_bytes_end - x_full_bytes_start`,
    lies in `(-8, 0]` whenever it is negative, so its truncating `i32`
    division by 8 gives 0 exactly as the clamped `Nat` version does. -/
def fillSolidRows (bytesPerRow xStart xEnd xFullBytesStart xFullBytesEnd numFull : Nat)
    (color : BinaryColor) : Nat → List Nat → Nat → List Nat
  | 0, data, _ => data
  | rows + 1, data, byteIndex =>
    let s := fillSolidRowBody xStart xEnd xFullBytesStart xFullBytesEnd numFull color data
      byteIndex
    fillSolidRows bytesPerRow xStart xEnd xFullBytesStart xFullBytesEnd numFull color rows s.1
      (s.2 + (bytesPerRow - xEnd / 8))

/-- `BinaryBuffer::fill_solid`. -/
def BinaryBuffer.fillSolid (buf : BinaryBuffer) (area : Rectangle) (color : BinaryColor) :
    BinaryBuffer :=
  let drawable := buf.boundingBox.intersection area
  if drawable.size.width = 0 ∨ drawable.size.height = 0 then buf
  else
    let yStart := drawable.topLeft.y.toNat
    let xStart := drawable.topLeft.x.toNat
    let xEnd := xStart + drawable.size.width
    let xFullBytesStart := min ((xStart + 7) / 8 * 8) xEnd
    let xFullBytesEnd := max (xEnd / 8 * 8) xStart
    let numFull := (xFullBytesEnd - xFullBytesStart) / 8
    { buf with
        data := fillSolidRows buf.bytesPerRow xStart xEnd xFullBytesStart xFullBytesEnd numFull
          color drawable.size.height buf.data (yStart * buf.bytesPerRow) }

/-! ### The two-plane 2-bit gray buffer (`buffer.rs`, `Gray2SplitBuffer`) -/

/-- `embedded_graphics::pixelcolor::Gray2` — a 2-bit luma value. -/
structure Gray2 where
  luma : Nat
deriving DecidableEq, Repr

/-- `buffer.rs`: `to_low_and_high_as_binary` — bit 0 of the luma gives the
    low plane's color, bit 1 the high plane's. -/
def toLowAndHighAsBinary (g : Gray2) : BinaryColor × BinaryColor :=
  let low := if g.luma &&& 1 = 0 then BinaryColor.Off else BinaryColor.On
  let high := if g.luma &&& 2 = 0 then BinaryColor.Off else BinaryColor.On
  (low, high)

/-- `buffer.rs`: `struct Gray2SplitBuffer`. -/
structure Gray2SplitBuffer where
  low : BinaryBuffer
  high : BinaryBuffer
deriving DecidableEq, Repr

/-- `buffer.rs`: `GRAY_ITER_CHUNK_SIZE` — capacity of the per-plane batches. -/
def GRAY_ITER_CHUNK_SIZE : Nat := 128

/-- The loop of `Gray2SplitBuffer::draw_iter` (`buffer.rs` lines 345-363).
    The two `heapless::Vec<_, 128>` batches are lists; `is_full` is
    `length = 128`; `push_unchecked` on a full batch is undefined behaviour
    and is modelled as `none`. A full low batch flushes both batches before
    the push, and any leftover batch is flushed at the end. -/
def Gray2SplitBuffer.drawIterAux (low high : BinaryBuffer)
    (lowChunk highChunk : List (Point × BinaryColor)) :
    List (Point × Gray2) → Option (BinaryBuffer × BinaryBuffer)
  | [] =>
    if lowChunk.isEmpty then some (low, high)
    else some (low.drawIter lowChunk, high.drawIter highChunk)
  | p :: rest =>
    let lh := toLowAndHighAsBinary p.2
    let st :=
      if lowChunk.length = GRAY_ITER_CHUNK_SIZE then
        (low.drawIter lowChunk, high.drawIter highChunk, ([] : List (Point × BinaryColor)),
          ([] : List (Point × BinaryColor)))
      else
        (low, high, lowChunk, highChunk)
    if GRAY_ITER_CHUNK_SIZE ≤ st.2.2.1.length ∨ GRAY_ITER_CHUNK_SIZE ≤ st.2.2.2.length then
      none
    else
      Gray2SplitBuffer.drawIterAux st.1 st.2.1 (st.2.2.1 ++ [(p.1, lh.1)])
        (st.2.2.2 ++ [(p.1, lh.2)]) rest

/-- `Gray2SplitBuffer::draw_iter`. -/
def Gray2SplitBuffer.drawIter (buf : Gray2SplitBuffer) (pixels : List (Point × Gray2)) :
    Option Gray2SplitBuffer :=
  match Gray2SplitBuffer.drawIterAux buf.low buf.high [] [] pixels with
  | none => none
  | some lh => some ⟨lh.1, lh.2⟩

/-! ### The protocol primitives (`hw.rs`, `epd7in5_v2.rs`) -/

/-- One observable hardware action of `CommandDataSend::send`. -/
inductive CommEvent where
  | busyCheck
  | dcLow
  | dcHigh
  | spiWrite (bytes : List Nat)
deriving DecidableEq, Repr

/-- The action trace of one `send(command, data)` call (`hw.rs` lines
    130-148): busy-wait, dc low, write the command byte, then — only for a
    non-empty payload — dc high and write the payload. -/
def sendEvents (command : Nat) (data : List Nat) : List CommEvent :=
  [CommEvent.busyCheck, CommEvent.dcLow, CommEvent.spiWrite [command]] ++
    (if data.isEmpty then [] else [CommEvent.dcHigh, CommEvent.spiWrite data])

/-- The trace of a sequence of `send` calls, in call order. -/
def sendAllEvents (calls : List (Nat × List Nat)) : List CommEvent :=
  (calls.map fun c => sendEvents c.1 c.2).flatten

/-- How a trace event moves the data/command pin (`true` = high). -/
def dcStep (dc : Bool) : CommEvent → Bool
  | .dcLow => false
  | .dcHigh => true
  | _ => dc

/-- The dc pin level after a trace, starting from `dc`. -/
def dcAfter (dc : Bool) (evs : List CommEvent) : Bool := evs.foldl dcStep dc

/-- The SPI writes of a trace in order, each paired with the dc pin level in
    effect when it happens. -/
def writesWithDc (dc : Bool) : List CommEvent → List (Bool × List Nat)
  | [] => []
  | e :: rest =>
    match e with
    | .spiWrite bs => (dc, bs) :: writesWithDc dc rest
    | _ => writesWithDc (dcStep dc e) rest

/-- `hw.rs` lines 116-127, `BusyWait::wait_if_busy`. The busy input is a
    level trace `t : Nat → Bool` (`true` = electrically high);
    `Wait::wait_for_low` completes at the first instant the pin is low.
    This implementation treats the pin as active-high busy: it returns at
    instant 0 when the pin is already low, and otherwise suspends until the
    first low instant. -/
def waitIfBusyHw (t : Nat → Bool) (h : ∃ k, t k = false) : Nat :=
  if t 0 = true then Nat.find h else 0

/-- `epd7in5_v2.rs` lines 48-58, that panel's `BusyWait::wait_if_busy`
    (busy pin active low per the driver's comment): if the pin is low it
    calls `wait_for_low`, which completes at the first low instant. -/
def waitIfBusyEpd7in5 (t : Nat → Bool) (h : ∃ k, t k = false) : Nat :=
  if t 0 = false then Nat.find h else 0

/-- A concrete busy-pin trace: low (busy, on the epd7in5_v2 wiring) at
    instant 0, high (idle) from instant 1 on. -/
def busyLowThenHigh : Nat → Bool := fun k => decide (1 ≤ k)

/-! ### The epd2in9 display session state machine (`epd2in9.rs`) -/

namespace Epd2In9

/-- `epd2in9.rs`: `enum RefreshMode`. -/
inductive RefreshMode where
  | Full
  | Partial
  | PartialBlackBypass
  | PartialWhiteBypass
deriving DecidableEq, Repr

/-- The awake type-states of `Epd2In9` (`StateUninitialized`, `StateReady`);
    `StateAsleep<W>` only wraps these (`W: StateAwake`). -/
inductive AwakeState where
  | StateUninitialized
  | StateReady (mode : RefreshMode)
deriving DecidableEq, Repr

/-- Every type-state of `Epd2In9`: the awake ones plus `StateAsleep<W>`. -/
inductive SessionState where
  | awake (s : AwakeState)
  | asleep (wakeState : AwakeState)
deriving DecidableEq, Repr

/-- An observable hardware effect of a session transition. -/
inductive HwAction where
  | resetPulse
  | command (cmd : Nat) (data : List Nat)
deriving DecidableEq, Repr

/-- `Sleep::sleep` for `Epd2In9<HW, STATE: StateAwake>` (`epd2in9.rs` lines
    489-499): sends `DeepSleepMode` (0x10) with payload `[0x01]` and wraps
    the current awake state in `StateAsleep`. -/
def sleepOp (s : AwakeState) : SessionState × List HwAction :=
  (SessionState.asleep s, [HwAction.command 0x10 [0x01]])

/-- `reset_impl` (`epd2in9.rs` lines 461-470): only a reset-pin pulse, no
    commands. -/
def resetActions : List HwAction := [HwAction.resetPulse]

/-- `Wake::wake` for `Epd2In9<HW, StateAsleep<W>>` (`epd2in9.rs` lines
    501-510): a hardware reset (via `Reset::reset`, which unwraps
    `StateAsleep` back to its saved awake state) and nothing else — no
    re-initialisation commands. -/
def wakeOp (w : AwakeState) : SessionState × List HwAction :=
  (SessionState.awake w, resetActions)

/-- `sleep()` followed by `wake()`, with the concatenated action trace. -/
def sleepThenWake (s : AwakeState) : SessionState × List HwAction :=
  let r1 := sleepOp s
  match r1.1 with
  | SessionState.asleep w =>
    let r2 := wakeOp w
    (r2.1, r1.2 ++ r2.2)
  | other => (other, r1.2)

/-- Whether `DisplaySimple::write_framebuffer` is invocable: the source
    implements it only for `Epd2In9<HW, StateReady>` (`epd2in9.rs` line 428),
    and a `StateReady` session exists only as the output of `init` /
    `set_refresh_mode`. -/
def canWriteFramebuffer : SessionState → Bool
  | SessionState.awake (AwakeState.StateReady _) => true
  | _ => false

/-- Whether `Displayable::update_display` is invocable: implemented only for
    `Epd2In9<HW, StateReady>` (`epd2in9.rs` line 406). -/
def canUpdateDisplay : SessionState → Bool
  | SessionState.awake (AwakeState.StateReady _) => true
  | _ => false

end Epd2In9

/-- `buffer.rs`: `enum Rotate` — a 90/180/270 degree clockwise rotation. -/
inductive Rotate where
  | Degrees90
  | Degrees180
  | Degrees270
deriving DecidableEq, Repr

/-- `buffer.rs`: `Rotation::inverse` for `Rotate`. -/
def Rotate.inverse : Rotate → Rotate
  | .Degrees90 => .Degrees270
  | .Degrees180 => .Degrees180
  | .Degrees270 => .Degrees90

/-- `buffer.rs`: `Rotation::rotate_size` for `Rotate`. -/
def Rotate.rotateSize (r : Rotate) (size : Size) : Size :=
  match r with
  | .Degrees90 | .Degrees270 => ⟨size.height, size.width⟩
  | .Degrees180 => size

/-- `buffer.rs`: `Rotation::rotate_point` for `Rotate`. -/
def Rotate.rotatePoint (r : Rotate) (point : Point) (sourceBounds : Size) : Point :=
  match r with
  | .Degrees90 => ⟨(sourceBounds.height : Int) - point.y - 1, point.x⟩
  | .Degrees180 =>
      ⟨(sourceBounds.width : Int) - point.x - 1, (sourceBounds.height : Int) - point.y - 1⟩
  | .Degrees270 => ⟨point.y, (sourceBounds.width : Int) - point.x - 1⟩

/-- A second concrete busy-pin trace: high for instants 0 and 1, low from
    instant 2 on (busy-then-idle on the active-high wiring of `hw.rs`). -/
def busyHighThenLow : Nat → Bool := fun k => decide (k < 2)

/-- The bit a `BinaryColor` stores: `On` = 1. -/
def colorBit : BinaryColor → Bool
  | .On => true
  | .Off => false

/-- The absolute bit position `draw_iter`'s addressing uses for pixel (x, y). -/
def pixelAddr (bytesPerRow x y : Nat) : Nat := 8 * (x / 8 + y * bytesPerRow) + x % 8

end Epd

namespace Epd

/-! ## Theorems -/

/-! ### Bit-level helper lemmas for the packed buffer -/

theorem length_writeBit (data : List Nat) (b i : Nat) (c : BinaryColor) :
    (writeBit data b i c).length = data.length := by
  unfold writeBit; exact List.length_set ..

theorem shift128 (i : Nat) (hi : i < 8) : (128 : Nat) >>> i = 2 ^ (7 - i) := by
  rw [Nat.shiftRight_eq_div_pow]
  interval_cases i <;> rfl

theorem getBitAbs_set (data : List Nat) (b v pos : Nat) (hb : b < data.length) :
    getBitAbs (data.set b v) pos =
      if pos / 8 = b then v.testBit (7 - pos % 8) else getBitAbs data pos := by
  unfold getBitAbs
  by_cases hq : pos / 8 = b
  · rw [if_pos hq, List.getD_eq_getElem?_getD, hq, List.getElem?_set_self hb]
    rfl
  · rw [if_neg hq, List.getD_eq_getElem?_getD, List.getElem?_set_ne (fun h => hq h.symm),
      ← List.getD_eq_getElem?_getD]

theorem testBit_or_mask (old i k : Nat) (hi : i < 8) (hk : k < 8) :
    (old ||| 2 ^ (7 - i)).testBit (7 - k) =
      if k = i then true else old.testBit (7 - k) := by
  rw [Nat.testBit_or, Nat.testBit_two_pow]
  by_cases h : k = i
  · rw [if_pos h, h]; simp
  · rw [if_neg h]
    have h2 : ¬ (7 - i = 7 - k) := by omega
    simp [h2]

theorem testBit_and_mask (old i k : Nat) (hi : i < 8) (hk : k < 8) :
    (old &&& (255 ^^^ 2 ^ (7 - i))).testBit (7 - k) =
      if k = i then false else old.testBit (7 - k) := by
  rw [Nat.testBit_and, Nat.testBit_xor, show (255 : Nat) = 2 ^ 8 - 1 from by norm_num,
    Nat.testBit_two_pow_sub_one, Nat.testBit_two_pow]
  by_cases h : k = i
  · rw [if_pos h, h]; simp [show 7 - i < 8 by omega]
  · rw [if_neg h]
    have h2 : ¬ (7 - i = 7 - k) := by omega
    simp [h2, show 7 - k < 8 by omega]

/-- The effect of one `0x80 >> bit` store on any absolute bit position. -/
theorem getBitAbs_writeBit (data : List Nat) (b i : Nat) (c : BinaryColor)
    (hb : b < data.length) (hi : i < 8) (pos : Nat) :
    getBitAbs (writeBit data b i c) pos =
      if pos = 8 * b + i then colorBit c else getBitAbs data pos := by
  have hmod : pos % 8 < 8 := Nat.mod_lt _ (by norm_num)
  have hdecomp : pos = 8 * (pos / 8) + pos % 8 := by omega
  have hv : writeBit data b i c = data.set b
      (if c = .On then data.getD b 0 ||| 2 ^ (7 - i)
        else data.getD b 0 &&& (255 ^^^ 2 ^ (7 - i))) := by
    unfold writeBit; rw [shift128 i hi]
  rw [hv, getBitAbs_set data b _ pos hb]
  by_cases hq : pos / 8 = b
  · rw [if_pos hq]
    cases c
    · rw [if_neg (show ¬ (BinaryColor.Off = BinaryColor.On) from by decide),
        testBit_and_mask _ _ _ hi hmod]
      by_cases hr : pos % 8 = i
      · rw [if_pos hr, if_pos (show pos = 8 * b + i by omega)]; rfl
      · rw [if_neg hr, if_neg (show ¬ pos = 8 * b + i by omega)]
        unfold getBitAbs
        rw [hq]
    · rw [if_pos (show BinaryColor.On = BinaryColor.On from rfl),
        testBit_or_mask _ _ _ hi hmod]
      by_cases hr : pos % 8 = i
      · rw [if_pos hr, if_pos (show pos = 8 * b + i by omega)]; rfl
      · rw [if_neg hr, if_neg (show ¬ pos = 8 * b + i by omega)]
        unfold getBitAbs
        rw [hq]
  · rw [if_neg hq, if_neg (show ¬ pos = 8 * b + i by omega)]

theorem pixelAddr_eq (bytesPerRow x y : Nat) :
    pixelAddr bytesPerRow x y = y * (8 * bytesPerRow) + x := by
  have h : y * (8 * bytesPerRow) = 8 * (y * bytesPerRow) := by ring
  unfold pixelAddr
  omega

theorem getPixel_eq_getBitAbs (buf : BinaryBuffer) (x y : Nat) :
    buf.getPixel x y =
      (if getBitAbs buf.data (pixelAddr buf.bytesPerRow x y) then BinaryColor.On else .Off) := by
  unfold BinaryBuffer.getPixel getBitAbs pixelAddr
  have h1 : (8 * (x / 8 + y * buf.bytesPerRow) + x % 8) / 8 = x / 8 + y * buf.bytesPerRow := by
    omega
  have h2 : (8 * (x / 8 + y * buf.bytesPerRow) + x % 8) % 8 = x % 8 := by
    omega
  rw [h1, h2]

theorem rowMajor_inj (K x y x' y' : Nat) (hx : x < K) (hx' : x' < K)
    (h : y * K + x = y' * K + x') : y = y' ∧ x = x' := by
  have hK : 0 < K := by omega
  have e1 : x + y * K = x' + y' * K := by omega
  have hxx : x = x' := by
    have e2 := congrArg (· % K) e1
    simpa [Nat.add_mul_mod_self_right, Nat.mod_eq_of_lt hx, Nat.mod_eq_of_lt hx'] using e2
  refine ⟨?_, hxx⟩
  have e3 : y * K = y' * K := by omega
  exact Nat.eq_of_mul_eq_mul_right hK e3

/-- Cast bridge: width is a whole number of bytes. -/
theorem wf_width_eq (buf : BinaryBuffer) (hwf : buf.wf) :
    buf.size.width = 8 * buf.bytesPerRow := by
  obtain ⟨h8, hbpr, -, -⟩ := hwf
  omega

/-- The byte index a pixel write targets is within the backing data. -/
theorem byteIndex_lt_length (buf : BinaryBuffer) (hwf : buf.wf) (x y : Nat)
    (hx : x < buf.size.width) (hy : y < buf.size.height) :
    x / 8 + y * buf.bytesPerRow < buf.data.length := by
  obtain ⟨h8, hbpr, hlen, -⟩ := hwf
  have hW : buf.size.width = 8 * buf.bytesPerRow := by omega
  have hyR : y * buf.bytesPerRow + buf.bytesPerRow ≤ buf.size.height * buf.bytesPerRow := by
    have := Nat.mul_le_mul_right buf.bytesPerRow (show y + 1 ≤ buf.size.height by omega)
    rwa [Nat.succ_mul] at this
  have hc : buf.size.height * buf.bytesPerRow = buf.bytesPerRow * buf.size.height :=
    Nat.mul_comm _ _
  omega

/-- Full characterisation of one in-bounds `set_pixel` (the `draw_iter` loop
    body): the addressed pixel reads back as the written color, every other
    in-bounds pixel is unchanged, and every byte other than the addressed
    one is untouched. -/
theorem setPixelRaw_in_bounds (buf : BinaryBuffer) (p : Point) (c : BinaryColor)
    (hwf : buf.wf)
    (hin : 0 ≤ p.x ∧ p.x < (buf.size.width : Int) ∧ 0 ≤ p.y ∧ p.y < (buf.size.height : Int)) :
    (buf.setPixelRaw p c).getPixel p.x.toNat p.y.toNat = c ∧
    (∀ x y : Nat, x < buf.size.width → y < buf.size.height →
      ¬(x = p.x.toNat ∧ y = p.y.toNat) →
      (buf.setPixelRaw p c).getPixel x y = buf.getPixel x y) ∧
    (∀ j : Nat, j ≠ p.x.toNat / 8 + p.y.toNat * buf.bytesPerRow →
      ((buf.setPixelRaw p c).data)[j]? = (buf.data)[j]?) ∧
    (buf.setPixelRaw p c).size = buf.size ∧
    (buf.setPixelRaw p c).bytesPerRow = buf.bytesPerRow := by
  obtain ⟨hx0, hxW, hy0, hyH⟩ := hin
  have hnotc : ¬ (p.x < 0 ∨ (buf.size.width : Int) ≤ p.x ∨ p.y < 0 ∨
      (buf.size.height : Int) ≤ p.y) := by omega
  have hset : buf.setPixelRaw p c =
      { buf with
          data := writeBit buf.data (p.x.toNat / 8 + p.y.toNat * buf.bytesPerRow)
            (p.x.toNat % 8) c } := by
    unfold BinaryBuffer.setPixelRaw
    rw [if_neg hnotc]
  have hxN : p.x.toNat < buf.size.width := by omega
  have hyN : p.y.toNat < buf.size.height := by omega
  have hblt := byteIndex_lt_length buf hwf p.x.toNat p.y.toNat hxN hyN
  have hW := wf_width_eq buf hwf
  have hmod : p.x.toNat % 8 < 8 := Nat.mod_lt _ (by norm_num)
  refine ⟨?_, ?_, ?_, by rw [hset], by rw [hset]⟩
  · rw [hset, getPixel_eq_getBitAbs]
    show (if getBitAbs (writeBit buf.data _ _ c) (pixelAddr buf.bytesPerRow _ _) then _ else _) = c
    rw [show pixelAddr buf.bytesPerRow p.x.toNat p.y.toNat =
        8 * (p.x.toNat / 8 + p.y.toNat * buf.bytesPerRow) + p.x.toNat % 8 from rfl]
    rw [getBitAbs_writeBit _ _ _ _ hblt hmod]
    rw [if_pos rfl]
    cases c <;> rfl
  · intro x y hx hy hne
    rw [hset, getPixel_eq_getBitAbs, getPixel_eq_getBitAbs]
    show (if getBitAbs (writeBit buf.data _ _ c) (pixelAddr buf.bytesPerRow x y) then _ else _) = _
    rw [show pixelAddr buf.bytesPerRow x y =
        8 * (x / 8 + y * buf.bytesPerRow) + x % 8 from rfl]
    rw [getBitAbs_writeBit _ _ _ _ hblt hmod]
    have hxmod : x % 8 < 8 := Nat.mod_lt _ (by norm_num)
    have hne2 : ¬ (8 * (x / 8 + y * buf.bytesPerRow) + x % 8 =
        8 * (p.x.toNat / 8 + p.y.toNat * buf.bytesPerRow) + p.x.toNat % 8) := by
      intro h
      have e1 : pixelAddr buf.bytesPerRow x y =
          pixelAddr buf.bytesPerRow p.x.toNat p.y.toNat := h
      rw [pixelAddr_eq, pixelAddr_eq] at e1
      have := rowMajor_inj (8 * buf.bytesPerRow) x y p.x.toNat p.y.toNat
        (by omega) (by omega) e1
      exact hne ⟨this.2, this.1⟩
    rw [if_neg hne2]
  · intro j hj
    rw [hset]
    show (writeBit buf.data _ _ c)[j]? = (buf.data)[j]?
    unfold writeBit
    exact List.getElem?_set_ne (fun h => hj h.symm)

/-- One-element `draw_iter` is the loop body once. -/
theorem drawIter_single (buf : BinaryBuffer) (p : Point) (c : BinaryColor) :
    buf.drawIter [(p, c)] = buf.setPixelRaw p c := rfl

/-- An out-of-bounds point leaves the buffer untouched. -/
theorem setPixelRaw_out_of_bounds (buf : BinaryBuffer) (p : Point) (c : BinaryColor)
    (hout : ¬(0 ≤ p.x ∧ p.x < (buf.size.width : Int) ∧ 0 ≤ p.y ∧
      p.y < (buf.size.height : Int))) :
    buf.setPixelRaw p c = buf := by
  unfold BinaryBuffer.setPixelRaw
  rw [if_pos (by omega)]

/-- C2: writing a single pixel through `draw_iter` touches at most the one
    addressed bit: in bounds, the point reads back as the written color,
    every other in-bounds pixel and every other backing byte is unchanged;
    out of bounds, the backing bytes are identical. -/
theorem binary_buffer_single_pixel_write :
    ∀ (buf : BinaryBuffer) (p : Point) (c : BinaryColor), buf.wf →
      ((0 ≤ p.x ∧ p.x < (buf.size.width : Int) ∧ 0 ≤ p.y ∧ p.y < (buf.size.height : Int)) →
        (buf.drawIter [(p, c)]).getPixel p.x.toNat p.y.toNat = c ∧
        (∀ x y : Nat, x < buf.size.width → y < buf.size.height →
          ¬(x = p.x.toNat ∧ y = p.y.toNat) →
          (buf.drawIter [(p, c)]).getPixel x y = buf.getPixel x y) ∧
        (∀ j : Nat, j ≠ p.x.toNat / 8 + p.y.toNat * buf.bytesPerRow →
          ((buf.drawIter [(p, c)]).data)[j]? = (buf.data)[j]?)) ∧
      (¬(0 ≤ p.x ∧ p.x < (buf.size.width : Int) ∧ 0 ≤ p.y ∧
          p.y < (buf.size.height : Int)) →
        (buf.drawIter [(p, c)]).data = buf.data) := by
  intro buf p c hwf
  constructor
  · intro hin
    have h := setPixelRaw_in_bounds buf p c hwf hin
    rw [drawIter_single]
    exact ⟨h.1, h.2.1, h.2.2.1⟩
  · intro hout
    rw [drawIter_single, setPixelRaw_out_of_bounds buf p c hout]

/-- Witness for C2 on a fresh 8x1 buffer at (0,0). -/
theorem binary_buffer_single_pixel_write_witness :
    ((BinaryBuffer.new ⟨8, 1⟩).drawIter [(⟨0, 0⟩, .On)]).getPixel 0 0 = .On :=
  ((binary_buffer_single_pixel_write (BinaryBuffer.new ⟨8, 1⟩) ⟨0, 0⟩ .On (by decide)).1
    (by decide)).1

/-- Helper: the dc/write observer distributes over trace concatenation. -/
theorem writesWithDc_append (dc : Bool) (a b : List CommEvent) :
    writesWithDc dc (a ++ b) = writesWithDc dc a ++ writesWithDc (dcAfter dc a) b := by
  induction a generalizing dc with
  | nil => simp [writesWithDc, dcAfter]
  | cons e rest ih =>
    cases e <;> simp [writesWithDc, dcAfter, dcStep, ih]

/-- C6: `Rotate::rotate_point` computes exactly the three stated integer
    formulas, and on a 10x20 source maps (1,1) to (18,1) under 90°, to
    (8,18) under 180°, and to (1,8) under 270°. -/
theorem rotate_point_formulas :
    (∀ (p : Point) (bounds : Size),
      Rotate.Degrees90.rotatePoint p bounds = ⟨(bounds.height : Int) - p.y - 1, p.x⟩ ∧
      Rotate.Degrees180.rotatePoint p bounds =
        ⟨(bounds.width : Int) - p.x - 1, (bounds.height : Int) - p.y - 1⟩ ∧
      Rotate.Degrees270.rotatePoint p bounds = ⟨p.y, (bounds.width : Int) - p.x - 1⟩) ∧
    Rotate.Degrees90.rotatePoint ⟨1, 1⟩ ⟨10, 20⟩ = ⟨18, 1⟩ ∧
    Rotate.Degrees180.rotatePoint ⟨1, 1⟩ ⟨10, 20⟩ = ⟨8, 18⟩ ∧
    Rotate.Degrees270.rotatePoint ⟨1, 1⟩ ⟨10, 20⟩ = ⟨1, 8⟩ :=
  ⟨fun _ _ => ⟨rfl, rfl, rfl⟩, by decide, by decide, by decide⟩

/-- C7: the inverse pairing is 90°⁻¹ = 270°, 180°⁻¹ = 180°, 270°⁻¹ = 90°,
    and for every point inside the source bounds, rotating and then applying
    the inverse rotation with the rotated bounds recovers the point. -/
theorem rotate_point_round_trip :
    Rotate.Degrees90.inverse = .Degrees270 ∧
    Rotate.Degrees180.inverse = .Degrees180 ∧
    Rotate.Degrees270.inverse = .Degrees90 ∧
    ∀ (r : Rotate) (p : Point) (b : Size),
      0 ≤ p.x → p.x < (b.width : Int) → 0 ≤ p.y → p.y < (b.height : Int) →
      (r.inverse).rotatePoint (r.rotatePoint p b) (r.rotateSize b) = p := by
  refine ⟨rfl, rfl, rfl, fun r p b _ _ _ _ => ?_⟩
  cases r <;> cases p <;>
    simp only [Rotate.inverse, Rotate.rotatePoint, Rotate.rotateSize, Point.mk.injEq] <;>
    constructor <;> ring

/-- Witness for C7 at r = 90°, p = (1,1), b = 10x20. -/
theorem rotate_point_round_trip_witness :
    (0 : Int) ≤ 1 ∧
    (Rotate.Degrees90.inverse).rotatePoint (Rotate.Degrees90.rotatePoint ⟨1, 1⟩ ⟨10, 20⟩)
      (Rotate.Degrees90.rotateSize ⟨10, 20⟩) = ⟨1, 1⟩ :=
  ⟨by decide,
    rotate_point_round_trip.2.2.2 .Degrees90 ⟨1, 1⟩ ⟨10, 20⟩ (by decide) (by decide) (by decide)
      (by decide)⟩

/-- C5: each `send(command, data)` trace starts with the busy-wait, performs
    exactly one command-byte write with dc low, then exactly one payload
    write with dc high iff the payload is non-empty; the dc pin ends high
    exactly when a payload was written; and a sequence of `send` calls
    produces the per-call writes concatenated in call order, each call
    re-asserting dc low itself (the observable writes do not depend on the
    dc level left by the previous call). -/
theorem send_trace_spec :
    ∀ (command : Nat) (data : List Nat) (dc0 : Bool),
      (sendEvents command data).head? = some CommEvent.busyCheck ∧
      writesWithDc dc0 (sendEvents command data) =
        (false, [command]) :: (if data.isEmpty then [] else [(true, data)]) ∧
      dcAfter dc0 (sendEvents command data) = !data.isEmpty ∧
      ∀ (calls : List (Nat × List Nat)) (dc1 : Bool),
        writesWithDc dc1 (sendAllEvents calls) =
          (calls.map fun c =>
            (false, [c.1]) :: (if c.2.isEmpty then [] else [(true, c.2)])).flatten := by
  have hsingle : ∀ (command : Nat) (data : List Nat) (dc0 : Bool),
      writesWithDc dc0 (sendEvents command data) =
        (false, [command]) :: (if data.isEmpty then [] else [(true, data)]) := by
    intro command data dc0
    cases data <;> simp [sendEvents, writesWithDc, dcStep]
  have hafter : ∀ (command : Nat) (data : List Nat) (dc0 : Bool),
      dcAfter dc0 (sendEvents command data) = !data.isEmpty := by
    intro command data dc0
    cases data <;> simp [sendEvents, dcAfter, dcStep]
  refine fun command data dc0 => ⟨rfl, hsingle command data dc0, hafter command data dc0, ?_⟩
  intro calls
  induction calls with
  | nil => intro dc1; simp [sendAllEvents, writesWithDc]
  | cons c rest ih =>
    intro dc1
    have : sendAllEvents (c :: rest) = sendEvents c.1 c.2 ++ sendAllEvents rest := by
      simp [sendAllEvents]
    rw [this, writesWithDc_append, hsingle, ih]
    simp

/-- C9: `sleep()` then `wake()` on a Ready session with mode m returns a
    Ready session with the same mode m; the wake transition emits only a
    reset pulse (no initialisation commands); and `write_framebuffer` /
    `update_display` are invocable only in the Ready state, which only
    `init`/`set_refresh_mode` produce. -/
theorem sleep_wake_round_trip :
    (∀ m : Epd2In9.RefreshMode,
      Epd2In9.sleepThenWake (.StateReady m) =
        (Epd2In9.SessionState.awake (.StateReady m),
          [Epd2In9.HwAction.command 0x10 [0x01], Epd2In9.HwAction.resetPulse])) ∧
    (∀ w : Epd2In9.AwakeState, (Epd2In9.wakeOp w).2 = [Epd2In9.HwAction.resetPulse]) ∧
    ∀ s : Epd2In9.SessionState,
      (Epd2In9.canWriteFramebuffer s = true ∨ Epd2In9.canUpdateDisplay s = true) →
      ∃ m, s = .awake (.StateReady m) := by
  refine ⟨fun m => rfl, fun w => rfl, fun s h => ?_⟩
  match s, h with
  | .awake (.StateReady m), _ => exact ⟨m, rfl⟩
  | .awake .StateUninitialized, h | .asleep _, h =>
    simp [Epd2In9.canWriteFramebuffer, Epd2In9.canUpdateDisplay] at h

/-- Witness for C9's invocability conjunct at the Ready(Full) state. -/
theorem sleep_wake_round_trip_witness :
    Epd2In9.canWriteFramebuffer (.awake (.StateReady .Full)) = true ∧
    ∃ m, (Epd2In9.SessionState.awake (.StateReady .Full)) = .awake (.StateReady m) :=
  ⟨rfl, sleep_wake_round_trip.2.2 _ (Or.inl rfl)⟩

/-- C4 counterexample: on the epd7in5_v2 hardware adapter the busy pin is
    active low (busy = low, per the driver's own comment), yet with the pin
    busy at instant 0 and idle from instant 1 on, `wait_if_busy` completes
    at instant 0 — while the pin still reports busy — because it calls
    `wait_for_low` (which completes immediately on an already-low pin)
    instead of waiting for the not-busy level. So the busy-wait does not
    "suspend until the pin transitions to not-busy" on this adapter, and
    the polarity is hard-coded per driver, not configured. -/
theorem epd7in5_busy_wait_claim_counterexample :
    busyLowThenHigh 0 = false ∧ busyLowThenHigh 1 = true ∧
    waitIfBusyEpd7in5 busyLowThenHigh ⟨0, rfl⟩ = 0 := by
  refine ⟨rfl, rfl, ?_⟩
  have h0 : busyLowThenHigh 0 = false := rfl
  rw [waitIfBusyEpd7in5, if_pos h0]
  exact (Nat.find_eq_zero _).mpr h0

/-- C4 (amended): the busy polarity is hard-coded in each driver module, not
    configured. The shared `hw.rs` implementation treats busy as
    active-high: it returns at instant 0 when the pin is already low, and
    otherwise suspends exactly until the first instant the pin is low. The
    `epd7in5_v2.rs` implementation (busy = low) checks `is_low` and then
    waits for *low*, so it always completes at instant 0, never suspending
    until the not-busy level. -/
theorem busy_wait_hardcoded_polarity :
    ∀ (t : Nat → Bool) (h : ∃ k, t k = false),
      (t 0 = false → waitIfBusyHw t h = 0) ∧
      (t 0 = true →
        t (waitIfBusyHw t h) = false ∧ ∀ j, j < waitIfBusyHw t h → t j = true) ∧
      waitIfBusyEpd7in5 t h = 0 := by
  intro t h
  by_cases h0 : t 0 = true
  · refine ⟨fun hf => by simp [hf] at h0, fun _ => ?_, ?_⟩
    · rw [waitIfBusyHw, if_pos h0]
      refine ⟨Nat.find_spec h, fun j hj => ?_⟩
      have := Nat.find_min h hj
      revert this
      cases t j <;> simp
    · rw [waitIfBusyEpd7in5, if_neg (by simp [h0])]
  · have h0' : t 0 = false := by revert h0; cases t 0 <;> simp
    refine ⟨fun _ => by rw [waitIfBusyHw, if_neg h0], fun ht => absurd ht h0, ?_⟩
    rw [waitIfBusyEpd7in5, if_pos h0']
    exact (Nat.find_eq_zero _).mpr h0'

/-- Witness for C4's amended theorem on a trace that is high (busy, on the
    `hw.rs` wiring) at instants 0 and 1 and low from instant 2. -/
theorem busy_wait_hardcoded_polarity_witness :
    (busyHighThenLow 0 = false → waitIfBusyHw busyHighThenLow ⟨2, rfl⟩ = 0) ∧
    (busyHighThenLow 0 = true →
      busyHighThenLow (waitIfBusyHw busyHighThenLow ⟨2, rfl⟩) = false ∧
      ∀ j, j < waitIfBusyHw busyHighThenLow ⟨2, rfl⟩ → busyHighThenLow j = true) ∧
    waitIfBusyEpd7in5 busyHighThenLow ⟨2, rfl⟩ = 0 :=
  busy_wait_hardcoded_polarity busyHighThenLow ⟨2, rfl⟩

/-- `draw_iter` over a concatenation is sequential drawing. -/
theorem drawIter_append (buf : BinaryBuffer) (a b : List (Point × BinaryColor)) :
    buf.drawIter (a ++ b) = (buf.drawIter a).drawIter b :=
  List.foldl_append ..

/-- The chunked loop of `Gray2SplitBuffer::draw_iter` never overflows its
    batches and equals drawing the decomposed pixels into each plane in
    input order, for any starting batches of equal length within capacity. -/
theorem gray2_drawIterAux_eq (rest : List (Point × Gray2)) :
    ∀ (low high : BinaryBuffer) (lc hc : List (Point × BinaryColor)),
      lc.length = hc.length → lc.length ≤ GRAY_ITER_CHUNK_SIZE →
      Gray2SplitBuffer.drawIterAux low high lc hc rest =
        some (low.drawIter (lc ++ rest.map fun p => (p.1, (toLowAndHighAsBinary p.2).1)),
          high.drawIter (hc ++ rest.map fun p => (p.1, (toLowAndHighAsBinary p.2).2))) := by
  induction rest with
  | nil =>
    intro low high lc hc hlen hcap
    by_cases he : lc.isEmpty
    · have hlc : lc = [] := List.isEmpty_iff.mp he
      have hhc : hc = [] := List.length_eq_zero.mp (by rw [← hlen, hlc]; rfl)
      subst hlc; subst hhc
      simp [Gray2SplitBuffer.drawIterAux, BinaryBuffer.drawIter]
    · simp [Gray2SplitBuffer.drawIterAux, he]
  | cons p rest ih =>
    intro low high lc hc hlen hcap
    by_cases hfull : lc.length = GRAY_ITER_CHUNK_SIZE
    · have hhfull : hc.length = GRAY_ITER_CHUNK_SIZE := by omega
      show Gray2SplitBuffer.drawIterAux low high lc hc (p :: rest) = _
      unfold Gray2SplitBuffer.drawIterAux
      rw [if_pos hfull]
      rw [if_neg (by simp [GRAY_ITER_CHUNK_SIZE])]
      rw [ih (low.drawIter lc) (high.drawIter hc) _ _ (by simp) (by simp [GRAY_ITER_CHUNK_SIZE])]
      simp [drawIter_append]
    · have hlt : lc.length < GRAY_ITER_CHUNK_SIZE := by omega
      show Gray2SplitBuffer.drawIterAux low high lc hc (p :: rest) = _
      unfold Gray2SplitBuffer.drawIterAux
      rw [if_neg hfull]
      rw [if_neg (by simp; omega)]
      rw [ih low high _ _ (by simp [hlen]) (by simp; omega)]
      simp

/-- C10: for every input pixel list, `Gray2SplitBuffer::draw_iter` runs all
    its `push_unchecked` calls strictly below the 128-entry capacity (the
    undefined-behaviour case of the model is never hit, so the result is
    always `some`), and the low and high planes receive exactly the same
    point sequence in input order — the final buffer equals drawing each
    pixel's decomposed color into each plane, pixel by pixel, in order. -/
theorem gray2_draw_iter_chunks_safe :
    ∀ (buf : Gray2SplitBuffer) (pixels : List (Point × Gray2)),
      buf.drawIter pixels =
        some ⟨buf.low.drawIter (pixels.map fun p => (p.1, (toLowAndHighAsBinary p.2).1)),
          buf.high.drawIter (pixels.map fun p => (p.1, (toLowAndHighAsBinary p.2).2))⟩ := by
  intro buf pixels
  unfold Gray2SplitBuffer.drawIter
  rw [gray2_drawIterAux_eq pixels buf.low buf.high [] [] rfl (by norm_num)]
  rfl

/-- C8: writing a `Gray2` color at an in-bounds point decomposes the 2-bit
    luma bitwise: bit 0 gives the low plane's binary color and bit 1 the
    high plane's, so writing 0b10 clears the low-plane bit and sets the
    high-plane bit and writing 0b01 does the opposite. -/
theorem gray2_split_decomposition :
    ∀ (buf : Gray2SplitBuffer) (p : Point) (g : Gray2),
      buf.low.wf → buf.high.wf → buf.low.size = buf.high.size →
      (0 ≤ p.x ∧ p.x < (buf.low.size.width : Int) ∧ 0 ≤ p.y ∧
        p.y < (buf.low.size.height : Int)) →
      ∃ out, buf.drawIter [(p, g)] = some out ∧
        out.low.getPixel p.x.toNat p.y.toNat = (if g.luma &&& 1 = 0 then .Off else .On) ∧
        out.high.getPixel p.x.toNat p.y.toNat = (if g.luma &&& 2 = 0 then .Off else .On) := by
  intro buf p g hwfl hwfh hsz hin
  unfold Gray2SplitBuffer.drawIter
  rw [gray2_drawIterAux_eq [(p, g)] buf.low buf.high [] [] rfl (by norm_num)]
  refine ⟨_, rfl, ?_, ?_⟩
  · show (buf.low.drawIter [(p, (toLowAndHighAsBinary g).1)]).getPixel _ _ = _
    rw [drawIter_single]
    exact (setPixelRaw_in_bounds buf.low p _ hwfl hin).1
  · show (buf.high.drawIter [(p, (toLowAndHighAsBinary g).2)]).getPixel _ _ = _
    rw [drawIter_single]
    exact (setPixelRaw_in_bounds buf.high p _ hwfh (by rw [← hsz]; exact hin)).1

/-- Witness for C8: a fresh two-plane 8x1 buffer, writing luma 0b10 at (0,0). -/
theorem gray2_split_decomposition_witness :
    ∃ out,
      (Gray2SplitBuffer.mk (BinaryBuffer.new ⟨8, 1⟩) (BinaryBuffer.new ⟨8, 1⟩)).drawIter
        [(⟨0, 0⟩, ⟨2⟩)] = some out ∧
      out.low.getPixel 0 0 = (if (2 : Nat) &&& 1 = 0 then .Off else .On) ∧
      out.high.getPixel 0 0 = (if (2 : Nat) &&& 2 = 0 then .Off else .On) :=
  gray2_split_decomposition (Gray2SplitBuffer.mk (BinaryBuffer.new ⟨8, 1⟩)
    (BinaryBuffer.new ⟨8, 1⟩)) ⟨0, 0⟩ ⟨2⟩ (by decide) (by decide) rfl (by decide)

/-- The repeated `set_next_bit!` loop sets exactly the next `n` bits of the
    packed stream, advances the cursor by `n` bits, and touches no byte
    below its starting byte. -/
theorem setNextBits_spec (c : BinaryColor) :
    ∀ (n : Nat) (data : List Nat) (b i : Nat), i < 8 → 8 * b + i + n ≤ 8 * data.length →
      (setNextBits c data b i n).1.length = data.length ∧
      8 * (setNextBits c data b i n).2.1 + (setNextBits c data b i n).2.2 = 8 * b + i + n ∧
      (setNextBits c data b i n).2.2 < 8 ∧
      (∀ pos, getBitAbs (setNextBits c data b i n).1 pos =
        if 8 * b + i ≤ pos ∧ pos < 8 * b + i + n then colorBit c else getBitAbs data pos) ∧
      (∀ j, j < b → (setNextBits c data b i n).1.getD j 0 = data.getD j 0) := by
  intro n
  induction n with
  | zero =>
    intro data b i hi hlen
    simp only [setNextBits]
    refine ⟨trivial, by omega, hi, fun pos => ?_, fun j hj => trivial⟩
    rw [if_neg (by omega)]
  | succ n ih =>
    intro data b i hi hlen
    have hblt : b < data.length := by omega
    have hlen' : (writeBit data b i c).length = data.length := length_writeBit ..
    have hframe : ∀ j, j < b → (writeBit data b i c).getD j 0 = data.getD j 0 := by
      intro j hj
      unfold writeBit
      rw [List.getD_eq_getElem?_getD, List.getElem?_set_ne (by omega),
        ← List.getD_eq_getElem?_getD]
    by_cases hroll : i + 1 = 8
    · have hstep : setNextBits c data b i (n + 1) =
          setNextBits c (writeBit data b i c) (b + 1) 0 n := by
        simp only [setNextBits]
        rw [if_pos hroll]
      rw [hstep]
      obtain ⟨l1, l2, l3, l4, l5⟩ :=
        ih (writeBit data b i c) (b + 1) 0 (by omega) (by omega)
      refine ⟨by omega, by omega, l3, fun pos => ?_, fun j hj => ?_⟩
      · rw [l4 pos, getBitAbs_writeBit data b i c hblt hi pos]
        split_ifs <;> first | rfl | (exfalso; omega)
      · rw [l5 j (by omega), hframe j hj]
    · have hstep : setNextBits c data b i (n + 1) =
          setNextBits c (writeBit data b i c) b (i + 1) n := by
        simp only [setNextBits]
        rw [if_neg hroll]
      rw [hstep]
      obtain ⟨l1, l2, l3, l4, l5⟩ :=
        ih (writeBit data b i c) b (i + 1) (by omega) (by omega)
      refine ⟨by omega, by omega, l3, fun pos => ?_, fun j hj => ?_⟩
      · rw [l4 pos, getBitAbs_writeBit data b i c hblt hi pos]
        split_ifs <;> first | rfl | (exfalso; omega)
      · rw [l5 j hj, hframe j hj]

theorem testBit_255 (j : Nat) (hj : j < 8) : (255 : Nat).testBit j = true := by
  rw [show (255 : Nat) = 2 ^ 8 - 1 from by norm_num, Nat.testBit_two_pow_sub_one]
  simp [hj]

/-- The fast byte-store loop of `fill_solid` writes `0xFF`/`0x00` into `n`
    consecutive bytes: exactly those 8n bits become the color, the written
    bytes hold exactly `0xFF`/`0x00`, and the bytes below are untouched. -/
theorem storeFullBytes_spec (c : BinaryColor) :
    ∀ (n : Nat) (data : List Nat) (b : Nat), b + n ≤ data.length →
      (storeFullBytes c data b n).1.length = data.length ∧
      (storeFullBytes c data b n).2 = b + n ∧
      (∀ pos, getBitAbs (storeFullBytes c data b n).1 pos =
        if 8 * b ≤ pos ∧ pos < 8 * (b + n) then colorBit c else getBitAbs data pos) ∧
      (∀ j, b ≤ j → j < b + n →
        (storeFullBytes c data b n).1.getD j 0 = (if c = .On then 255 else 0)) ∧
      (∀ j, j < b → (storeFullBytes c data b n).1.getD j 0 = data.getD j 0) := by
  intro n
  induction n with
  | zero =>
    intro data b hlen
    simp only [storeFullBytes]
    refine ⟨trivial, by omega, fun pos => ?_, fun j h1 h2 => by omega, fun j hj => trivial⟩
    rw [if_neg (by omega)]
  | succ n ih =>
    intro data b hlen
    have hblt : b < data.length := by omega
    have hstep : storeFullBytes c data b (n + 1) =
        storeFullBytes c (data.set b (if c = .On then 255 else 0)) (b + 1) n := by
      simp only [storeFullBytes]
    rw [hstep]
    have hlen' : (data.set b (if c = .On then 255 else 0)).length = data.length :=
      List.length_set ..
    obtain ⟨l1, l2, l3, l4, l5⟩ :=
      ih (data.set b (if c = .On then 255 else 0)) (b + 1) (by omega)
    have hbits : ∀ pos, getBitAbs (data.set b (if c = .On then 255 else 0)) pos =
        if pos / 8 = b then colorBit c else getBitAbs data pos := by
      intro pos
      rw [getBitAbs_set data b _ pos hblt]
      by_cases hq : pos / 8 = b
      · rw [if_pos hq, if_pos hq]
        cases c
        · rw [if_neg (show ¬ (BinaryColor.Off = BinaryColor.On) from by decide)]
          exact Nat.zero_testBit _
        · rw [if_pos rfl]
          exact testBit_255 _ (by omega)
      · rw [if_neg hq, if_neg hq]
    refine ⟨by omega, by omega, fun pos => ?_, fun j h1 h2 => ?_, fun j hj => ?_⟩
    · rw [l3 pos, hbits pos]
      have hd : pos / 8 = b ↔ (8 * b ≤ pos ∧ pos < 8 * (b + 1)) := by omega
      split_ifs with h1 h2 h2 <;> first | rfl | (exfalso; omega)
    · by_cases hjb : j = b
      · rw [l5 j (by omega), hjb, List.getD_eq_getElem?_getD, List.getElem?_set_self hblt]
        rfl
      · exact l4 j (by omega) (by omega)
    · rw [l5 j (by omega), List.getD_eq_getElem?_getD, List.getElem?_set_ne (by omega),
        ← List.getD_eq_getElem?_getD]

/-- If the intersection of the bitmap bounds with `area` is degenerate, no
    in-bounds pixel lies in `area`. -/
theorem intersection_empty_no_point (size : Size) (area : Rectangle)
    (h : ((Rectangle.mk ⟨0, 0⟩ size).intersection area).size.width = 0 ∨
      ((Rectangle.mk ⟨0, 0⟩ size).intersection area).size.height = 0) :
    ∀ x y : Nat, x < size.width → y < size.height → ¬ area.containsPt ⟨x, y⟩ := by
  intro x y hx hy hc
  have c1 : area.topLeft.x ≤ (x : Int) := hc.1
  have c2 : (x : Int) < area.topLeft.x + area.size.width := hc.2.1
  have c3 : area.topLeft.y ≤ (y : Int) := hc.2.2.1
  have c4 : (y : Int) < area.topLeft.y + area.size.height := hc.2.2.2
  simp only [Rectangle.intersection] at h
  split_ifs at h with h1 h2
  · simp only at h1
    omega
  · simp only at h h2
    omega
  · simp only at h2
    omega

/-- If the intersection of the bitmap bounds with `area` is non-degenerate,
    its fields clamp `area` to the bounds: the top-left is non-negative, the
    extent fits in the bounds, and membership of an in-bounds pixel in
    `area` is exactly membership in the intersection's coordinate ranges. -/
theorem intersection_nonempty_spec (size : Size) (area : Rectangle)
    (h : ¬(((Rectangle.mk ⟨0, 0⟩ size).intersection area).size.width = 0 ∨
      ((Rectangle.mk ⟨0, 0⟩ size).intersection area).size.height = 0)) :
    0 ≤ ((Rectangle.mk ⟨0, 0⟩ size).intersection area).topLeft.x ∧
    0 ≤ ((Rectangle.mk ⟨0, 0⟩ size).intersection area).topLeft.y ∧
    ((Rectangle.mk ⟨0, 0⟩ size).intersection area).topLeft.x.toNat +
      ((Rectangle.mk ⟨0, 0⟩ size).intersection area).size.width ≤ size.width ∧
    ((Rectangle.mk ⟨0, 0⟩ size).intersection area).topLeft.y.toNat +
      ((Rectangle.mk ⟨0, 0⟩ size).intersection area).size.height ≤ size.height ∧
    ∀ x y : Nat, x < size.width → y < size.height →
      (area.containsPt ⟨x, y⟩ ↔
        (((Rectangle.mk ⟨0, 0⟩ size).intersection area).topLeft.x.toNat ≤ x ∧
          x < ((Rectangle.mk ⟨0, 0⟩ size).intersection area).topLeft.x.toNat +
            ((Rectangle.mk ⟨0, 0⟩ size).intersection area).size.width ∧
          ((Rectangle.mk ⟨0, 0⟩ size).intersection area).topLeft.y.toNat ≤ y ∧
          y < ((Rectangle.mk ⟨0, 0⟩ size).intersection area).topLeft.y.toNat +
            ((Rectangle.mk ⟨0, 0⟩ size).intersection area).size.height)) := by
  have hcontains : ∀ x y : Nat, area.containsPt ⟨x, y⟩ ↔
      (area.topLeft.x ≤ (x : Int) ∧ (x : Int) < area.topLeft.x + area.size.width ∧
        area.topLeft.y ≤ (y : Int) ∧ (y : Int) < area.topLeft.y + area.size.height) :=
    fun x y => Iff.rfl
  simp only [Rectangle.intersection] at h ⊢
  split_ifs at h ⊢ with h1 h2
  · exact absurd (Or.inl rfl) h
  · simp only at h h1 h2 ⊢
    refine ⟨by omega, by omega, by omega, by omega, fun x y hx hy => ?_⟩
    rw [hcontains x y]
    constructor
    · intro hc
      omega
    · intro hc
      omega
  · exact absurd (Or.inl rfl) h

/-- One `fill_solid` row sets exactly the bits `[8B + xStart, 8B + xEnd)`,
    returns the cursor at `B + xEnd/8`, stores exactly `0xFF`/`0x00` into
    the row's fully covered bytes, and touches no byte below `B`. -/
theorem fillSolidRowBody_spec (color : BinaryColor)
    (xStart xEnd xFullBytesStart xFullBytesEnd numFull : Nat)
    (data : List Nat) (B : Nat)
    (hfs : xFullBytesStart = min ((xStart + 7) / 8 * 8) xEnd)
    (hfe : xFullBytesEnd = max (xEnd / 8 * 8) xStart)
    (hnf : numFull = (xFullBytesEnd - xFullBytesStart) / 8)
    (hlt : xStart < xEnd)
    (hlen : 8 * B + xEnd ≤ 8 * data.length) :
    (fillSolidRowBody xStart xEnd xFullBytesStart xFullBytesEnd numFull color data B).1.length
      = data.length ∧
    (fillSolidRowBody xStart xEnd xFullBytesStart xFullBytesEnd numFull color data B).2
      = B + xEnd / 8 ∧
    (∀ pos,
      getBitAbs (fillSolidRowBody xStart xEnd xFullBytesStart xFullBytesEnd numFull color
        data B).1 pos =
      if 8 * B + xStart ≤ pos ∧ pos < 8 * B + xEnd then colorBit color
      else getBitAbs data pos) ∧
    (∀ j, B + xFullBytesStart / 8 ≤ j → j < B + xFullBytesStart / 8 + numFull →
      (fillSolidRowBody xStart xEnd xFullBytesStart xFullBytesEnd numFull color
        data B).1.getD j 0 = (if color = .On then 255 else 0)) ∧
    (∀ j, j < B →
      (fillSolidRowBody xStart xEnd xFullBytesStart xFullBytesEnd numFull color
        data B).1.getD j 0 = data.getD j 0) := by
  by_cases hnf0 : numFull = 0
  · have hbody : fillSolidRowBody xStart xEnd xFullBytesStart xFullBytesEnd numFull color
        data B =
        ((setNextBits color data (B + xStart / 8) (xStart % 8) (xEnd - xStart)).1,
          (setNextBits color data (B + xStart / 8) (xStart % 8) (xEnd - xStart)).2.1) := by
      unfold fillSolidRowBody
      rw [if_pos hnf0]
    rw [hbody]
    obtain ⟨l1, l2, l3, l4, l5⟩ := setNextBits_spec color (xEnd - xStart) data
      (B + xStart / 8) (xStart % 8) (by omega) (by omega)
    refine ⟨l1, by omega, fun pos => ?_, fun j h1 h2 => by omega, fun j hj => l5 j (by omega)⟩
    rw [l4 pos]
    split_ifs <;> first | rfl | (exfalso; omega)
  · -- full-byte arithmetic facts
    have hfacts : xFullBytesStart = (xStart + 7) / 8 * 8 ∧ xFullBytesEnd = xEnd / 8 * 8 ∧
        xStart ≤ xFullBytesStart ∧ xFullBytesStart % 8 = 0 ∧ xFullBytesEnd % 8 = 0 ∧
        xFullBytesStart + 8 * numFull = xFullBytesEnd ∧ xFullBytesEnd ≤ xEnd := by
      omega
    obtain ⟨f1, f2, f3, f4, f5, f6, f7⟩ := hfacts
    have hbody : fillSolidRowBody xStart xEnd xFullBytesStart xFullBytesEnd numFull color
        data B =
        (let r1 := setNextBits color data (B + xStart / 8) (xStart % 8)
            (xFullBytesStart - xStart)
          let r2 := storeFullBytes color r1.1 r1.2.1 numFull
          let r3 := setNextBits color r2.1 r2.2 (xFullBytesEnd % 8) (xEnd - xFullBytesEnd)
          (r3.1, r3.2.1)) := by
      unfold fillSolidRowBody
      rw [if_neg hnf0]
    rw [hbody]
    dsimp only
    obtain ⟨a1, a2, a3, a4, a5⟩ := setNextBits_spec color (xFullBytesStart - xStart) data
      (B + xStart / 8) (xStart % 8) (by omega) (by omega)
    set r1 := setNextBits color data (B + xStart / 8) (xStart % 8)
      (xFullBytesStart - xStart) with hr1
    have hr1b : r1.2.1 = B + xFullBytesStart / 8 := by omega
    obtain ⟨b1, b2, b3, b4, b5⟩ := storeFullBytes_spec color numFull r1.1 r1.2.1 (by omega)
    set r2 := storeFullBytes color r1.1 r1.2.1 numFull with hr2
    have hr2b : r2.2 = B + xFullBytesEnd / 8 := by omega
    obtain ⟨c1, c2, c3, c4, c5⟩ := setNextBits_spec color (xEnd - xFullBytesEnd) r2.1
      r2.2 (xFullBytesEnd % 8) (by omega) (by omega)
    set r3 := setNextBits color r2.1 r2.2 (xFullBytesEnd % 8) (xEnd - xFullBytesEnd) with hr3
    refine ⟨by omega, by omega, fun pos => ?_, fun j h1 h2 => ?_, fun j hj => ?_⟩
    · show getBitAbs r3.1 pos = _
      rw [c4 pos, b3 pos, a4 pos]
      split_ifs <;> first | rfl | (exfalso; omega)
    · show r3.1.getD j 0 = _
      rw [c5 j (by omega), b4 j (by omega) (by omega)]
    · show r3.1.getD j 0 = _
      rw [c5 j (by omega), b5 j (by omega), a5 j (by omega)]

/-- The `fill_solid` row loop over `rows` rows starting at base byte cursor
    `B`: sets exactly the row-range bits of each row, stores `0xFF`/`0x00`
    into each row's fully covered bytes, and touches nothing below `B`. -/
theorem fillSolidRows_spec (bytesPerRow xStart xEnd xFullBytesStart xFullBytesEnd numFull : Nat)
    (color : BinaryColor)
    (hfs : xFullBytesStart = min ((xStart + 7) / 8 * 8) xEnd)
    (hfe : xFullBytesEnd = max (xEnd / 8 * 8) xStart)
    (hnf : numFull = (xFullBytesEnd - xFullBytesStart) / 8)
    (hlt : xStart < xEnd)
    (hle : xEnd ≤ 8 * bytesPerRow) :
    ∀ (rows : Nat) (data : List Nat) (B : Nat),
      B + rows * bytesPerRow ≤ data.length →
      (fillSolidRows bytesPerRow xStart xEnd xFullBytesStart xFullBytesEnd numFull color rows
        data B).length = data.length ∧
      (∀ pos,
        ((∃ k, k < rows ∧ 8 * (B + k * bytesPerRow) + xStart ≤ pos ∧
            pos < 8 * (B + k * bytesPerRow) + xEnd) →
          getBitAbs (fillSolidRows bytesPerRow xStart xEnd xFullBytesStart xFullBytesEnd
            numFull color rows data B) pos = colorBit color) ∧
        (¬(∃ k, k < rows ∧ 8 * (B + k * bytesPerRow) + xStart ≤ pos ∧
            pos < 8 * (B + k * bytesPerRow) + xEnd) →
          getBitAbs (fillSolidRows bytesPerRow xStart xEnd xFullBytesStart xFullBytesEnd
            numFull color rows data B) pos = getBitAbs data pos)) ∧
      (∀ k j, k < rows → B + k * bytesPerRow + xFullBytesStart / 8 ≤ j →
        j < B + k * bytesPerRow + xFullBytesStart / 8 + numFull →
        (fillSolidRows bytesPerRow xStart xEnd xFullBytesStart xFullBytesEnd numFull color rows
          data B).getD j 0 = (if color = .On then 255 else 0)) ∧
      (∀ j, j < B →
        (fillSolidRows bytesPerRow xStart xEnd xFullBytesStart xFullBytesEnd numFull color rows
          data B).getD j 0 = data.getD j 0) := by
  have hkey : numFull = 0 ∨ (xFullBytesStart % 8 = 0 ∧
      xFullBytesStart + 8 * numFull = xFullBytesEnd ∧ xFullBytesEnd ≤ xEnd ∧
      xStart ≤ xFullBytesStart) := by omega
  intro rows
  induction rows with
  | zero =>
    intro data B hlen
    simp only [fillSolidRows]
    refine ⟨trivial, fun pos => ⟨fun h => ?_, fun h => trivial⟩, fun k j hk => by omega,
      fun j hj => trivial⟩
    obtain ⟨k, hk, -⟩ := h
    omega
  | succ rows ih =>
    intro data B hlen
    have hstep : fillSolidRows bytesPerRow xStart xEnd xFullBytesStart xFullBytesEnd numFull
        color (rows + 1) data B =
        fillSolidRows bytesPerRow xStart xEnd xFullBytesStart xFullBytesEnd numFull color rows
          (fillSolidRowBody xStart xEnd xFullBytesStart xFullBytesEnd numFull color data B).1
          ((fillSolidRowBody xStart xEnd xFullBytesStart xFullBytesEnd numFull color data
            B).2 + (bytesPerRow - xEnd / 8)) := by
      simp only [fillSolidRows]
    obtain ⟨r1, r2, r3, r4, r5⟩ := fillSolidRowBody_spec color xStart xEnd xFullBytesStart
      xFullBytesEnd numFull data B hfs hfe hnf hlt
      (by
        have hx : (rows + 1) * bytesPerRow = rows * bytesPerRow + bytesPerRow :=
          Nat.succ_mul ..
        omega)
    have hcursor : (fillSolidRowBody xStart xEnd xFullBytesStart xFullBytesEnd numFull color
        data B).2 + (bytesPerRow - xEnd / 8) = B + bytesPerRow := by omega
    rw [hstep, hcursor]
    have hsm : (rows + 1) * bytesPerRow = rows * bytesPerRow + bytesPerRow := Nat.succ_mul ..
    obtain ⟨i1, i2, i3, i4⟩ := ih
      (fillSolidRowBody xStart xEnd xFullBytesStart xFullBytesEnd numFull color data B).1
      (B + bytesPerRow) (by omega)
    refine ⟨by omega, fun pos => ⟨fun h => ?_, fun h => ?_⟩, fun k j hk h1 h2 => ?_,
      fun j hj => ?_⟩
    · -- some row covers pos
      obtain ⟨k, hk, hlo, hhi⟩ := h
      cases k with
      | zero =>
        simp only [Nat.zero_mul, Nat.add_zero] at hlo hhi
        have hnot : ¬(∃ k, k < rows ∧
            8 * (B + bytesPerRow + k * bytesPerRow) + xStart ≤ pos ∧
            pos < 8 * (B + bytesPerRow + k * bytesPerRow) + xEnd) := by
          rintro ⟨k', -, hlo', -⟩
          have : 0 ≤ k' * bytesPerRow := Nat.zero_le _
          omega
        rw [(i2 pos).2 hnot, r3 pos, if_pos (by omega)]
      | succ k =>
        have hx : (k + 1) * bytesPerRow = k * bytesPerRow + bytesPerRow := Nat.succ_mul ..
        refine (i2 pos).1 ⟨k, by omega, by omega, by omega⟩
    · -- no row covers pos
      have hnot : ¬(∃ k, k < rows ∧
          8 * (B + bytesPerRow + k * bytesPerRow) + xStart ≤ pos ∧
          pos < 8 * (B + bytesPerRow + k * bytesPerRow) + xEnd) := by
        rintro ⟨k', hk', hlo', hhi'⟩
        have hx : (k' + 1) * bytesPerRow = k' * bytesPerRow + bytesPerRow := Nat.succ_mul ..
        exact h ⟨k' + 1, by omega, by omega, by omega⟩
      rw [(i2 pos).2 hnot, r3 pos, if_neg ?_]
      intro hin
      exact h ⟨0, by omega, by omega, by omega⟩
    · -- full bytes of row k
      cases k with
      | zero =>
        simp only [Nat.zero_mul, Nat.add_zero] at h1 h2
        rcases hkey with hz | ⟨k1, k2, k3, k4⟩
        · omega
        · rw [i4 j (by omega)]
          exact r4 j h1 h2
      | succ k =>
        have hx : (k + 1) * bytesPerRow = k * bytesPerRow + bytesPerRow := Nat.succ_mul ..
        refine i3 k j (by omega) (by omega) (by omega)
    · rw [i4 j (by omega), r5 j hj]

theorem rowRange_decode (K q x q' a e : Nat) (hx : x < K) (he : e ≤ K)
    (h1 : q' * K + a ≤ q * K + x) (h2 : q * K + x < q' * K + e) :
    q = q' ∧ a ≤ x ∧ x < e := by
  have hq : q = q' := by
    rcases Nat.lt_trichotomy q q' with hlt | heq | hgt
    · have hm : (q + 1) * K ≤ q' * K := Nat.mul_le_mul_right K hlt
      rw [Nat.succ_mul] at hm
      omega
    · exact heq
    · have hm : (q' + 1) * K ≤ q * K := Nat.mul_le_mul_right K hgt
      rw [Nat.succ_mul] at hm
      omega
  subst hq
  omega

/-- C1: `fill_solid` keeps the buffer geometry and backing length, sets
    exactly the pixels of the intersection of `area` with the bitmap bounds
    to `color` while leaving every other pixel bit unchanged, stores the
    literal byte `0xFF`/`0x00` into every fully covered byte of every
    intersected row, and on a zeroed 24x8 buffer filling x=6,width=18,y=2,
    height=3 with `On` yields rows 2-4 = [0b00000011, 0b11111111, 0b11111111]
    with all other rows zero. -/
theorem fill_solid_spec :
    ∀ (buf : BinaryBuffer) (area : Rectangle) (color : BinaryColor), buf.wf →
      ((buf.fillSolid area color).size = buf.size ∧
        (buf.fillSolid area color).bytesPerRow = buf.bytesPerRow ∧
        (buf.fillSolid area color).data.length = buf.data.length) ∧
      (∀ x y : Nat, x < buf.size.width → y < buf.size.height →
        (buf.fillSolid area color).getPixel x y =
          if area.containsPt ⟨x, y⟩ then color else buf.getPixel x y) ∧
      (∀ y jcol : Nat,
        (buf.boundingBox.intersection area).topLeft.y.toNat ≤ y →
        y < (buf.boundingBox.intersection area).topLeft.y.toNat +
          (buf.boundingBox.intersection area).size.height →
        (buf.boundingBox.intersection area).topLeft.x.toNat ≤ 8 * jcol →
        8 * (jcol + 1) ≤ (buf.boundingBox.intersection area).topLeft.x.toNat +
          (buf.boundingBox.intersection area).size.width →
        (buf.fillSolid area color).data.getD (y * buf.bytesPerRow + jcol) 0 =
          (if color = .On then 255 else 0)) ∧
      ((BinaryBuffer.new ⟨24, 8⟩).fillSolid ⟨⟨6, 2⟩, ⟨18, 3⟩⟩ .On).data =
        [0, 0, 0, 0, 0, 0, 3, 255, 255, 3, 255, 255, 3, 255, 255, 0, 0, 0, 0, 0, 0, 0, 0, 0] := by
  intro buf area color hwf
  have hbbi : buf.boundingBox.intersection area =
      (Rectangle.mk ⟨0, 0⟩ buf.size).intersection area := rfl
  obtain ⟨hw8, hbpr, hlen, -⟩ := hwf
  by_cases he : ((Rectangle.mk ⟨0, 0⟩ buf.size).intersection area).size.width = 0 ∨
      ((Rectangle.mk ⟨0, 0⟩ buf.size).intersection area).size.height = 0
  · -- degenerate intersection: fill_solid is the identity
    have hfill : buf.fillSolid area color = buf := by
      simp only [BinaryBuffer.fillSolid]
      rw [hbbi, if_pos he]
    refine ⟨⟨by rw [hfill], by rw [hfill], by rw [hfill]⟩, fun x y hx hy => ?_,
      fun y jcol h1 h2 h3 h4 => ?_, by decide⟩
    · rw [hfill, if_neg (intersection_empty_no_point buf.size area he x y hx hy)]
    · rw [hbbi] at h1 h2 h3 h4
      omega
  · -- proper intersection
    obtain ⟨ht1, ht2, ht3, ht4, hiff⟩ := intersection_nonempty_spec buf.size area he
    have hW : buf.size.width = 8 * buf.bytesPerRow := by omega
    have hwneq : ¬ ((Rectangle.mk ⟨0, 0⟩ buf.size).intersection area).size.width = 0 ∧
        ¬ ((Rectangle.mk ⟨0, 0⟩ buf.size).intersection area).size.height = 0 := by
      constructor <;> intro hz <;> exact he (by omega)
    have hfill : buf.fillSolid area color =
        { buf with
            data := fillSolidRows buf.bytesPerRow
              ((Rectangle.mk ⟨0, 0⟩ buf.size).intersection area).topLeft.x.toNat
              (((Rectangle.mk ⟨0, 0⟩ buf.size).intersection area).topLeft.x.toNat +
                ((Rectangle.mk ⟨0, 0⟩ buf.size).intersection area).size.width)
              (min ((((Rectangle.mk ⟨0, 0⟩ buf.size).intersection area).topLeft.x.toNat + 7) /
                  8 * 8)
                (((Rectangle.mk ⟨0, 0⟩ buf.size).intersection area).topLeft.x.toNat +
                  ((Rectangle.mk ⟨0, 0⟩ buf.size).intersection area).size.width))
              (max ((((Rectangle.mk ⟨0, 0⟩ buf.size).intersection area).topLeft.x.toNat +
                  ((Rectangle.mk ⟨0, 0⟩ buf.size).intersection area).size.width) / 8 * 8)
                (((Rectangle.mk ⟨0, 0⟩ buf.size).intersection area).topLeft.x.toNat))
              ((max ((((Rectangle.mk ⟨0, 0⟩ buf.size).intersection area).topLeft.x.toNat +
                    ((Rectangle.mk ⟨0, 0⟩ buf.size).intersection area).size.width) / 8 * 8)
                  (((Rectangle.mk ⟨0, 0⟩ buf.size).intersection area).topLeft.x.toNat) -
                min ((((Rectangle.mk ⟨0, 0⟩ buf.size).intersection area).topLeft.x.toNat + 7) /
                    8 * 8)
                  (((Rectangle.mk ⟨0, 0⟩ buf.size).intersection area).topLeft.x.toNat +
                    ((Rectangle.mk ⟨0, 0⟩ buf.size).intersection area).size.width)) / 8)
              color
              ((Rectangle.mk ⟨0, 0⟩ buf.size).intersection area).size.height
              buf.data
              (((Rectangle.mk ⟨0, 0⟩ buf.size).intersection area).topLeft.y.toNat *
                buf.bytesPerRow) } := by
      simp only [BinaryBuffer.fillSolid]
      rw [hbbi, if_neg he]
    have hlenrow :
        ((Rectangle.mk ⟨0, 0⟩ buf.size).intersection area).topLeft.y.toNat * buf.bytesPerRow +
          ((Rectangle.mk ⟨0, 0⟩ buf.size).intersection area).size.height * buf.bytesPerRow ≤
          buf.data.length := by
      have h1 : (((Rectangle.mk ⟨0, 0⟩ buf.size).intersection area).topLeft.y.toNat +
          ((Rectangle.mk ⟨0, 0⟩ buf.size).intersection area).size.height) * buf.bytesPerRow ≤
          buf.size.height * buf.bytesPerRow :=
        Nat.mul_le_mul_right _ ht4
      rw [Nat.add_mul] at h1
      have h2 : buf.size.height * buf.bytesPerRow = buf.bytesPerRow * buf.size.height :=
        Nat.mul_comm ..
      omega
    obtain ⟨R1, R2, R3, R4⟩ := fillSolidRows_spec buf.bytesPerRow
      ((Rectangle.mk ⟨0, 0⟩ buf.size).intersection area).topLeft.x.toNat
      (((Rectangle.mk ⟨0, 0⟩ buf.size).intersection area).topLeft.x.toNat +
        ((Rectangle.mk ⟨0, 0⟩ buf.size).intersection area).size.width)
      _ _ _ color rfl rfl rfl (by omega) (by omega)
      ((Rectangle.mk ⟨0, 0⟩ buf.size).intersection area).size.height buf.data
      (((Rectangle.mk ⟨0, 0⟩ buf.size).intersection area).topLeft.y.toNat * buf.bytesPerRow)
      hlenrow
    refine ⟨⟨by rw [hfill], by rw [hfill], ?_⟩, fun x y hx hy => ?_,
      fun y jcol h1 h2 h3 h4 => ?_, by decide⟩
    · rw [hfill]
      exact R1
    · -- pixel-level effect
      rw [hfill]
      rw [getPixel_eq_getBitAbs]
      dsimp only
      have hposx : pixelAddr buf.bytesPerRow x y = y * (8 * buf.bytesPerRow) + x :=
        pixelAddr_eq ..
      by_cases hc : area.containsPt ⟨x, y⟩
      · rw [if_pos hc]
        obtain ⟨hax, hxe, hay, hye⟩ := (hiff x y hx hy).mp hc
        have hbase :
            ((Rectangle.mk ⟨0, 0⟩ buf.size).intersection area).topLeft.y.toNat *
                buf.bytesPerRow +
              (y - ((Rectangle.mk ⟨0, 0⟩ buf.size).intersection area).topLeft.y.toNat) *
                buf.bytesPerRow = y * buf.bytesPerRow := by
          rw [← Nat.add_mul]
          congr 1
          omega
        have h8 : 8 * (y * buf.bytesPerRow) = y * (8 * buf.bytesPerRow) := by ring
        rw [(R2 (pixelAddr buf.bytesPerRow x y)).1
          ⟨y - ((Rectangle.mk ⟨0, 0⟩ buf.size).intersection area).topLeft.y.toNat,
            by omega, by rw [hbase]; omega, by rw [hbase]; omega⟩]
        cases color <;> rfl
      · rw [if_neg hc]
        have hnot : ¬(∃ k, k <
            ((Rectangle.mk ⟨0, 0⟩ buf.size).intersection area).size.height ∧
            8 * (((Rectangle.mk ⟨0, 0⟩ buf.size).intersection area).topLeft.y.toNat *
                buf.bytesPerRow + k * buf.bytesPerRow) +
              ((Rectangle.mk ⟨0, 0⟩ buf.size).intersection area).topLeft.x.toNat ≤
              pixelAddr buf.bytesPerRow x y ∧
            pixelAddr buf.bytesPerRow x y <
              8 * (((Rectangle.mk ⟨0, 0⟩ buf.size).intersection area).topLeft.y.toNat *
                buf.bytesPerRow + k * buf.bytesPerRow) +
              (((Rectangle.mk ⟨0, 0⟩ buf.size).intersection area).topLeft.x.toNat +
                ((Rectangle.mk ⟨0, 0⟩ buf.size).intersection area).size.width)) := by
          rintro ⟨k, hk, hlo, hhi⟩
          have hconv : 8 * (((Rectangle.mk ⟨0, 0⟩ buf.size).intersection
              area).topLeft.y.toNat * buf.bytesPerRow + k * buf.bytesPerRow) =
              (((Rectangle.mk ⟨0, 0⟩ buf.size).intersection area).topLeft.y.toNat + k) *
                (8 * buf.bytesPerRow) := by ring
          have hdec := rowRange_decode (8 * buf.bytesPerRow) y x
            (((Rectangle.mk ⟨0, 0⟩ buf.size).intersection area).topLeft.y.toNat + k)
            ((Rectangle.mk ⟨0, 0⟩ buf.size).intersection area).topLeft.x.toNat
            (((Rectangle.mk ⟨0, 0⟩ buf.size).intersection area).topLeft.x.toNat +
              ((Rectangle.mk ⟨0, 0⟩ buf.size).intersection area).size.width)
            (by omega) (by omega) (by omega) (by omega)
          exact hc ((hiff x y hx hy).mpr ⟨by omega, by omega, by omega, by omega⟩)
        rw [(R2 (pixelAddr buf.bytesPerRow x y)).2 hnot, getPixel_eq_getBitAbs buf x y]
    · -- fully covered bytes hold the literal byte
      rw [hbbi] at h1 h2 h3 h4
      rw [hfill]
      have hbase :
          ((Rectangle.mk ⟨0, 0⟩ buf.size).intersection area).topLeft.y.toNat *
              buf.bytesPerRow +
            (y - ((Rectangle.mk ⟨0, 0⟩ buf.size).intersection area).topLeft.y.toNat) *
              buf.bytesPerRow = y * buf.bytesPerRow := by
        rw [← Nat.add_mul]
        congr 1
        omega
      exact R3 (y - ((Rectangle.mk ⟨0, 0⟩ buf.size).intersection area).topLeft.y.toNat)
        (y * buf.bytesPerRow + jcol) (by omega) (by rw [hbase]; omega) (by rw [hbase]; omega)

/-- Witness for C1: the pixel-level conjunct on a 16x2 buffer filling a
    10x1 rectangle at (3, 0), read back at the in-bounds pixel (5, 0). -/
theorem fill_solid_spec_witness :
    ((BinaryBuffer.new ⟨16, 2⟩).fillSolid ⟨⟨3, 0⟩, ⟨10, 1⟩⟩ .On).getPixel 5 0 =
      (if (Rectangle.mk ⟨3, 0⟩ ⟨10, 1⟩).containsPt ⟨5, 0⟩ then .On
        else (BinaryBuffer.new ⟨16, 2⟩).getPixel 5 0) :=
  (fill_solid_spec (BinaryBuffer.new ⟨16, 2⟩) ⟨⟨3, 0⟩, ⟨10, 1⟩⟩ .On (by decide)).2.1 5 0
    (by decide) (by decide)

theorem getD_drop' (l : List BinaryColor) (n m : Nat) (d : BinaryColor) :
    (l.drop n).getD m d = l.getD (n + m) d := by
  rw [List.getD_eq_getElem?_getD, List.getD_eq_getElem?_getD, List.getElem?_drop]

/-- The x loop of `fill_contiguous`, given at least one color per x value:
    it consumes exactly one color per x value, never returns early, keeps
    the byte/bit cursor glued to the clamped x coordinate, and writes the
    t-th color of the sequence at the bit of x value `x + t` exactly when
    that value is in bounds. -/
theorem fillContigX_spec (W R rowbase : Nat) (hWR : W = 8 * R) :
    ∀ (n : Nat) (data : List Nat) (colors : List BinaryColor) (byteIndex bitIndex : Nat)
      (x : Int),
      n ≤ colors.length →
      bitIndex < 8 →
      8 * byteIndex + bitIndex = 8 * rowbase + (min (max x 0) (W : Int)).toNat →
      8 * rowbase + W ≤ 8 * data.length →
      (fillContigX W data colors byteIndex bitIndex x n).1.length = data.length ∧
      (fillContigX W data colors byteIndex bitIndex x n).2.1 = colors.drop n ∧
      (fillContigX W data colors byteIndex bitIndex x n).2.2.2.2 = false ∧
      8 * (fillContigX W data colors byteIndex bitIndex x n).2.2.1 +
        (fillContigX W data colors byteIndex bitIndex x n).2.2.2.1 =
        8 * rowbase + (min (max (x + (n : Int)) 0) (W : Int)).toNat ∧
      (fillContigX W data colors byteIndex bitIndex x n).2.2.2.1 < 8 ∧
      ∀ pos : Nat,
        getBitAbs (fillContigX W data colors byteIndex bitIndex x n).1 pos =
          if 8 * rowbase ≤ pos ∧ pos < 8 * rowbase + W ∧
              x ≤ ((pos - 8 * rowbase : Nat) : Int) ∧
              ((pos - 8 * rowbase : Nat) : Int) < x + (n : Int) then
            colorBit (colors.getD ((((pos - 8 * rowbase : Nat) : Int) - x).toNat) .Off)
          else getBitAbs data pos := by
  intro n
  induction n with
  | zero =>
    intro data colors byteIndex bitIndex x hn hbit hcur hlen
    simp only [fillContigX]
    refine ⟨trivial, by simp, trivial, by omega, hbit, fun pos => ?_⟩
    rw [if_neg (by omega)]
  | succ n ih =>
    intro data colors byteIndex bitIndex x hn hbit hcur hlen
    cases colors with
    | nil => simp at hn
    | cons c cs =>
    have hcs : n ≤ cs.length := by simpa using hn
    by_cases hoob : x < 0 ∨ (W : Int) ≤ x
    · -- out-of-bounds x: consume one color, do not advance the cursor
      have hstep : fillContigX W data (c :: cs) byteIndex bitIndex x (n + 1) =
          fillContigX W data cs byteIndex bitIndex (x + 1) n := by
        simp only [fillContigX]
        rw [if_pos hoob]
        rfl
      rw [hstep]
      obtain ⟨l1, l2, l3, l4, l5, l6⟩ := ih data cs byteIndex bitIndex (x + 1) hcs hbit
        (by omega) hlen
      refine ⟨l1, by rw [l2, List.drop_succ_cons], l3, by rw [l4]; omega, l5, fun pos => ?_⟩
      rw [l6 pos]
      by_cases htar : 8 * rowbase ≤ pos ∧ pos < 8 * rowbase + W ∧
          x ≤ ((pos - 8 * rowbase : Nat) : Int) ∧
          ((pos - 8 * rowbase : Nat) : Int) < x + ((n + 1 : Nat) : Int)
      · rw [if_pos (show 8 * rowbase ≤ pos ∧ pos < 8 * rowbase + W ∧
            x + 1 ≤ ((pos - 8 * rowbase : Nat) : Int) ∧
            ((pos - 8 * rowbase : Nat) : Int) < x + 1 + (n : Int) from by
          push_cast at htar
          omega)]
        rw [if_pos htar]
        have hidx : ((((pos - 8 * rowbase : Nat) : Int)) - x).toNat =
            ((((pos - 8 * rowbase : Nat) : Int)) - (x + 1)).toNat + 1 := by
          push_cast at htar
          omega
        rw [hidx, List.getD_cons_succ]
      · rw [if_neg (show ¬(8 * rowbase ≤ pos ∧ pos < 8 * rowbase + W ∧
            x + 1 ≤ ((pos - 8 * rowbase : Nat) : Int) ∧
            ((pos - 8 * rowbase : Nat) : Int) < x + 1 + (n : Int)) from by
          push_cast at htar ⊢
          omega)]
        rw [if_neg htar]
    · -- in-bounds x: write one bit with the head color, advance the cursor
      have hx0 : 0 ≤ x ∧ x < (W : Int) := by omega
      have hclamp : (min (max x 0) (W : Int)).toNat = x.toNat := by omega
      have hblt : byteIndex < data.length := by omega
      have hposw : 8 * byteIndex + bitIndex = 8 * rowbase + x.toNat := by omega
      by_cases hroll : bitIndex + 1 = 8
      · have hstep : fillContigX W data (c :: cs) byteIndex bitIndex x (n + 1) =
            fillContigX W (writeBit data byteIndex bitIndex c) cs (byteIndex + 1) 0
              (x + 1) n := by
          simp only [fillContigX]
          rw [if_neg hoob]
          simp only [hroll, reduceIte]
        rw [hstep]
        obtain ⟨l1, l2, l3, l4, l5, l6⟩ := ih (writeBit data byteIndex bitIndex c) cs
          (byteIndex + 1) 0 (x + 1) hcs (by omega) (by omega)
          (by rw [length_writeBit]; omega)
        have hlw : (writeBit data byteIndex bitIndex c).length = data.length :=
          length_writeBit ..
        refine ⟨by omega, by rw [l2, List.drop_succ_cons], l3, by rw [l4]; omega, l5, fun pos => ?_⟩
        rw [l6 pos, getBitAbs_writeBit data byteIndex bitIndex c hblt hbit pos]
        by_cases htar : 8 * rowbase ≤ pos ∧ pos < 8 * rowbase + W ∧
            x ≤ ((pos - 8 * rowbase : Nat) : Int) ∧
            ((pos - 8 * rowbase : Nat) : Int) < x + ((n + 1 : Nat) : Int)
        · by_cases hhead : ((pos - 8 * rowbase : Nat) : Int) = x
          · rw [if_neg (show ¬(8 * rowbase ≤ pos ∧ pos < 8 * rowbase + W ∧
                x + 1 ≤ ((pos - 8 * rowbase : Nat) : Int) ∧
                ((pos - 8 * rowbase : Nat) : Int) < x + 1 + (n : Int)) from by
              push_cast at htar
              omega)]
            rw [if_pos (show pos = 8 * byteIndex + bitIndex from by
              push_cast at htar
              omega)]
            rw [if_pos htar]
            have hidx : ((((pos - 8 * rowbase : Nat) : Int)) - x).toNat = 0 := by omega
            rw [hidx, List.getD_cons_zero]
          · rw [if_pos (show 8 * rowbase ≤ pos ∧ pos < 8 * rowbase + W ∧
                x + 1 ≤ ((pos - 8 * rowbase : Nat) : Int) ∧
                ((pos - 8 * rowbase : Nat) : Int) < x + 1 + (n : Int) from by
              push_cast at htar
              omega)]
            rw [if_pos htar]
            have hidx : ((((pos - 8 * rowbase : Nat) : Int)) - x).toNat =
                ((((pos - 8 * rowbase : Nat) : Int)) - (x + 1)).toNat + 1 := by
              push_cast at htar
              omega
            rw [hidx, List.getD_cons_succ]
        · rw [if_neg (show ¬(8 * rowbase ≤ pos ∧ pos < 8 * rowbase + W ∧
              x + 1 ≤ ((pos - 8 * rowbase : Nat) : Int) ∧
              ((pos - 8 * rowbase : Nat) : Int) < x + 1 + (n : Int)) from by
            push_cast at htar ⊢
            omega)]
          rw [if_neg (show ¬ pos = 8 * byteIndex + bitIndex from by
            push_cast at htar
            omega)]
          rw [if_neg htar]
      · have hstep : fillContigX W data (c :: cs) byteIndex bitIndex x (n + 1) =
            fillContigX W (writeBit data byteIndex bitIndex c) cs byteIndex (bitIndex + 1)
              (x + 1) n := by
          simp only [fillContigX]
          rw [if_neg hoob]
          simp only [hroll, reduceIte]
        rw [hstep]
        obtain ⟨l1, l2, l3, l4, l5, l6⟩ := ih (writeBit data byteIndex bitIndex c) cs
          byteIndex (bitIndex + 1) (x + 1) hcs (by omega) (by omega)
          (by rw [length_writeBit]; omega)
        have hlw : (writeBit data byteIndex bitIndex c).length = data.length :=
          length_writeBit ..
        refine ⟨by omega, by rw [l2, List.drop_succ_cons], l3, by rw [l4]; omega, l5, fun pos => ?_⟩
        rw [l6 pos, getBitAbs_writeBit data byteIndex bitIndex c hblt hbit pos]
        by_cases htar : 8 * rowbase ≤ pos ∧ pos < 8 * rowbase + W ∧
            x ≤ ((pos - 8 * rowbase : Nat) : Int) ∧
            ((pos - 8 * rowbase : Nat) : Int) < x + ((n + 1 : Nat) : Int)
        · by_cases hhead : ((pos - 8 * rowbase : Nat) : Int) = x
          · rw [if_neg (show ¬(8 * rowbase ≤ pos ∧ pos < 8 * rowbase + W ∧
                x + 1 ≤ ((pos - 8 * rowbase : Nat) : Int) ∧
                ((pos - 8 * rowbase : Nat) : Int) < x + 1 + (n : Int)) from by
              push_cast at htar
              omega)]
            rw [if_pos (show pos = 8 * byteIndex + bitIndex from by
              push_cast at htar
              omega)]
            rw [if_pos htar]
            have hidx : ((((pos - 8 * rowbase : Nat) : Int)) - x).toNat = 0 := by omega
            rw [hidx, List.getD_cons_zero]
          · rw [if_pos (show 8 * rowbase ≤ pos ∧ pos < 8 * rowbase + W ∧
                x + 1 ≤ ((pos - 8 * rowbase : Nat) : Int) ∧
                ((pos - 8 * rowbase : Nat) : Int) < x + 1 + (n : Int) from by
              push_cast at htar
              omega)]
            rw [if_pos htar]
            have hidx : ((((pos - 8 * rowbase : Nat) : Int)) - x).toNat =
                ((((pos - 8 * rowbase : Nat) : Int)) - (x + 1)).toNat + 1 := by
              push_cast at htar
              omega
            rw [hidx, List.getD_cons_succ]
        · rw [if_neg (show ¬(8 * rowbase ≤ pos ∧ pos < 8 * rowbase + W ∧
              x + 1 ≤ ((pos - 8 * rowbase : Nat) : Int) ∧
              ((pos - 8 * rowbase : Nat) : Int) < x + 1 + (n : Int)) from by
            push_cast at htar ⊢
            omega)]
          rw [if_neg (show ¬ pos = 8 * byteIndex + bitIndex from by
            push_cast at htar
            omega)]
          rw [if_neg htar]

set_option maxHeartbeats 1600000 in
/-- The y loop of `fill_contiguous`, given at least one color per walked
    cell: an out-of-bounds row consumes one color per x value without
    writing; an in-bounds row writes its in-bounds cells with the sequence's
    colors in row-major order; overall exactly `rows * (xEnd - xStart)`
    colors are consumed and nothing outside the walked in-bounds cells is
    touched. -/
theorem fillContigRows_spec (W H R : Nat) (hWR : W = 8 * R)
    (xStart xEnd : Int) (hxs : xStart < (W : Int)) (hxe : 0 < xEnd)
    (hse : xStart < xEnd) :
    ∀ (n : Nat) (data : List Nat) (colors : List BinaryColor) (byteIndex : Nat) (y : Int),
      n * (xEnd - xStart).toNat ≤ colors.length →
      byteIndex = (min (max y 0) (H : Int)).toNat * R →
      data.length = R * H →
      (fillContigRows W H xStart xEnd ((max xStart 0).toNat / 8)
          (R - (min xEnd (W : Int)).toNat / 8) data colors byteIndex y n).1.length =
        data.length ∧
      (fillContigRows W H xStart xEnd ((max xStart 0).toNat / 8)
          (R - (min xEnd (W : Int)).toNat / 8) data colors byteIndex y n).2 =
        colors.drop (n * (xEnd - xStart).toNat) ∧
      ∀ x' y' : Nat, x' < W → y' < H →
        getBitAbs (fillContigRows W H xStart xEnd ((max xStart 0).toNat / 8)
            (R - (min xEnd (W : Int)).toNat / 8) data colors byteIndex y n).1
          (y' * (8 * R) + x') =
          if y ≤ (y' : Int) ∧ (y' : Int) < y + (n : Int) ∧ xStart ≤ (x' : Int) ∧
              (x' : Int) < xEnd then
            colorBit (colors.getD
              ((((y' : Int) - y) * (xEnd - xStart) + ((x' : Int) - xStart)).toNat) .Off)
          else getBitAbs data (y' * (8 * R) + x') := by
  intro n
  induction n with
  | zero =>
    intro data colors byteIndex y hn hbi hdl
    simp only [fillContigRows]
    refine ⟨trivial, by simp, fun x' y' hx' hy' => ?_⟩
    rw [if_neg (by omega)]
  | succ n ih =>
    intro data colors byteIndex y hn hbi hdl
    have hsm : (n + 1) * (xEnd - xStart).toNat = n * (xEnd - xStart).toNat +
        (xEnd - xStart).toNat := Nat.succ_mul ..
    by_cases hoob : y < 0 ∨ (H : Int) ≤ y
    · -- out-of-bounds row: consume one color per x value, write nothing
      have hstep : fillContigRows W H xStart xEnd ((max xStart 0).toNat / 8)
          (R - (min xEnd (W : Int)).toNat / 8) data colors byteIndex y (n + 1) =
          fillContigRows W H xStart xEnd ((max xStart 0).toNat / 8)
            (R - (min xEnd (W : Int)).toNat / 8) data
            (colors.drop (xEnd - xStart).toNat) byteIndex (y + 1) n := by
        simp only [fillContigRows]
        rw [if_pos hoob]
      rw [hstep]
      obtain ⟨l1, l2, l3⟩ := ih data (colors.drop (xEnd - xStart).toNat) byteIndex (y + 1)
        (by rw [List.length_drop]; omega) (by rw [hbi]; congr 2; omega) hdl
      refine ⟨l1, ?_, fun x' y' hx' hy' => ?_⟩
      · rw [l2, List.drop_drop]
        congr 1
        omega
      · rw [l3 x' y' hx' hy']
        by_cases htar : y ≤ (y' : Int) ∧ (y' : Int) < y + ((n + 1 : Nat) : Int) ∧
            xStart ≤ (x' : Int) ∧ (x' : Int) < xEnd
        · rw [if_pos (show y + 1 ≤ (y' : Int) ∧ (y' : Int) < y + 1 + (n : Int) ∧
              xStart ≤ (x' : Int) ∧ (x' : Int) < xEnd from by
            push_cast at htar
            omega)]
          rw [if_pos htar, getD_drop']
          have hring : ((y' : Int) - y) * (xEnd - xStart) =
              (xEnd - xStart) + ((y' : Int) - (y + 1)) * (xEnd - xStart) := by ring
          have hnn : 0 ≤ ((y' : Int) - (y + 1)) * (xEnd - xStart) :=
            mul_nonneg (by push_cast at htar; omega) (by omega)
          have hidx : (xEnd - xStart).toNat +
              (((y' : Int) - (y + 1)) * (xEnd - xStart) + ((x' : Int) - xStart)).toNat =
              (((y' : Int) - y) * (xEnd - xStart) + ((x' : Int) - xStart)).toNat := by
            rw [hring]
            push_cast at htar
            omega
          rw [hidx]
        · rw [if_neg (show ¬(y + 1 ≤ (y' : Int) ∧ (y' : Int) < y + 1 + (n : Int) ∧
              xStart ≤ (x' : Int) ∧ (x' : Int) < xEnd) from by
            push_cast at htar ⊢
            omega)]
          rw [if_neg htar]
    · -- in-bounds row
      have hy0 : 0 ≤ y ∧ y < (H : Int) := by omega
      have hclampy : (min (max y 0) (H : Int)).toNat = y.toNat := by omega
      set rowbase := y.toNat * R with hrowbase
      have hperRow : n * (xEnd - xStart).toNat ≤ (xEnd - xStart).toNat +
          n * (xEnd - xStart).toNat := by omega
      obtain ⟨l1, l2, l3, l4, l5, l6⟩ := fillContigX_spec W R rowbase hWR
        (xEnd - xStart).toNat data colors (byteIndex + (max xStart 0).toNat / 8)
        ((max xStart 0).toNat % 8) xStart (by omega) (Nat.mod_lt _ (by norm_num))
        (by
          have h1 : (min (max xStart 0) (W : Int)).toNat = (max xStart 0).toNat := by omega
          rw [h1, hbi, hclampy]
          omega)
        (by
          have h1 : (y.toNat + 1) * R = y.toNat * R + R := Nat.succ_mul ..
          have h2 : (y.toNat + 1) * R ≤ H * R :=
            Nat.mul_le_mul_right R (by omega)
          have h3 : H * R = R * H := Nat.mul_comm ..
          omega)
      set rx := fillContigX W data colors (byteIndex + (max xStart 0).toNat / 8)
        ((max xStart 0).toNat % 8) xStart (xEnd - xStart).toNat with hrx
      have hstep : fillContigRows W H xStart xEnd ((max xStart 0).toNat / 8)
          (R - (min xEnd (W : Int)).toNat / 8) data colors byteIndex y (n + 1) =
          fillContigRows W H xStart xEnd ((max xStart 0).toNat / 8)
            (R - (min xEnd (W : Int)).toNat / 8) rx.1 rx.2.1
            (rx.2.2.1 + (R - (min xEnd (W : Int)).toNat / 8)) (y + 1) n := by
        simp only [fillContigRows]
        rw [if_neg hoob, l3]
        simp
      rw [hstep]
      have hclble : (min xEnd (W : Int)).toNat ≤ 8 * R := by omega
      have hcursor : rx.2.2.1 + (R - (min xEnd (W : Int)).toNat / 8) =
          (min (max (y + 1) 0) (H : Int)).toNat * R := by
        have hxend : xStart + ((xEnd - xStart).toNat : Int) = xEnd := by omega
        rw [hxend] at l4
        have hclE : (min (max xEnd 0) (W : Int)).toNat = (min xEnd (W : Int)).toNat := by
          omega
        rw [hclE] at l4
        have h1 : (y.toNat + 1) * R = y.toNat * R + R := Nat.succ_mul ..
        have h2 : (min (max (y + 1) 0) (H : Int)).toNat = y.toNat + 1 := by omega
        rw [h2, h1]
        omega
      obtain ⟨i1, i2, i3⟩ := ih rx.1 rx.2.1
        (rx.2.2.1 + (R - (min xEnd (W : Int)).toNat / 8)) (y + 1)
        (by rw [l2, List.length_drop]; omega) hcursor (by rw [l1, hdl])
      refine ⟨by rw [i1, l1], ?_, fun x' y' hx' hy' => ?_⟩
      · rw [i2, l2, List.drop_drop]
        congr 1
        omega
      · rw [i3 x' y' hx' hy']
        have hrow8 : 8 * rowbase = y.toNat * (8 * R) := by rw [hrowbase]; ring
        by_cases hyy : y' = y.toNat
        · -- this is the row just written
          have hnotih : ¬(y + 1 ≤ (y' : Int) ∧ (y' : Int) < y + 1 + (n : Int) ∧
              xStart ≤ (x' : Int) ∧ (x' : Int) < xEnd) := by omega
          rw [if_neg hnotih, l6 (y' * (8 * R) + x')]
          have hposin : 8 * rowbase ≤ y' * (8 * R) + x' ∧
              y' * (8 * R) + x' < 8 * rowbase + W := by
            rw [hrow8, hyy]
            omega
          have hpsub : ((y' * (8 * R) + x' - 8 * rowbase : Nat) : Int) = (x' : Int) := by
            rw [hrow8, hyy]
            omega
          by_cases htar : y ≤ (y' : Int) ∧ (y' : Int) < y + ((n + 1 : Nat) : Int) ∧
              xStart ≤ (x' : Int) ∧ (x' : Int) < xEnd
          · rw [if_pos (show 8 * rowbase ≤ y' * (8 * R) + x' ∧
                y' * (8 * R) + x' < 8 * rowbase + W ∧
                xStart ≤ ((y' * (8 * R) + x' - 8 * rowbase : Nat) : Int) ∧
                ((y' * (8 * R) + x' - 8 * rowbase : Nat) : Int) <
                  xStart + ((xEnd - xStart).toNat : Int) from by
              rw [hpsub]
              refine ⟨hposin.1, hposin.2, by omega, by omega⟩)]
            rw [if_pos htar]
            have hzero : ((y' : Int) - y) * (xEnd - xStart) = 0 := by
              have hz : ((y' : Int) - y) = 0 := by omega
              rw [hz]
              ring
            have hidx : (((y' * (8 * R) + x' - 8 * rowbase : Nat) : Int) - xStart).toNat =
                (((y' : Int) - y) * (xEnd - xStart) + ((x' : Int) - xStart)).toNat := by
              rw [hzero, hpsub]
              omega
            rw [hidx]
          · rw [if_neg (show ¬(8 * rowbase ≤ y' * (8 * R) + x' ∧
                y' * (8 * R) + x' < 8 * rowbase + W ∧
                xStart ≤ ((y' * (8 * R) + x' - 8 * rowbase : Nat) : Int) ∧
                ((y' * (8 * R) + x' - 8 * rowbase : Nat) : Int) <
                  xStart + ((xEnd - xStart).toNat : Int)) from by
              rw [hpsub]
              push_cast at htar
              intro hcon
              exact htar ⟨by omega, by omega, by omega, by omega⟩)]
            rw [if_neg htar]
        · -- a different row: this row's write does not touch it
          have hrowne : ¬(8 * rowbase ≤ y' * (8 * R) + x' ∧
              y' * (8 * R) + x' < 8 * rowbase + W) := by
            rw [hrow8]
            intro hcon
            have hdec := rowRange_decode (8 * R) y' x' y.toNat 0 W (by omega) (by omega)
              (by omega) (by omega)
            exact hyy hdec.1
          by_cases htar : y ≤ (y' : Int) ∧ (y' : Int) < y + ((n + 1 : Nat) : Int) ∧
              xStart ≤ (x' : Int) ∧ (x' : Int) < xEnd
          · have hyy2 : (y' : Int) ≠ y := by omega
            rw [if_pos (show y + 1 ≤ (y' : Int) ∧ (y' : Int) < y + 1 + (n : Int) ∧
                xStart ≤ (x' : Int) ∧ (x' : Int) < xEnd from by
              push_cast at htar
              omega)]
            rw [if_pos htar, l2, getD_drop']
            have hring : ((y' : Int) - y) * (xEnd - xStart) =
                (xEnd - xStart) + ((y' : Int) - (y + 1)) * (xEnd - xStart) := by ring
            have hnn : 0 ≤ ((y' : Int) - (y + 1)) * (xEnd - xStart) :=
              mul_nonneg (by omega) (by omega)
            have hidx : (xEnd - xStart).toNat +
                (((y' : Int) - (y + 1)) * (xEnd - xStart) + ((x' : Int) - xStart)).toNat =
                (((y' : Int) - y) * (xEnd - xStart) + ((x' : Int) - xStart)).toNat := by
              rw [hring]
              push_cast at htar
              omega
            rw [hidx]
          · rw [if_neg (show ¬(y + 1 ≤ (y' : Int) ∧ (y' : Int) < y + 1 + (n : Int) ∧
                xStart ≤ (x' : Int) ∧ (x' : Int) < xEnd) from by
              push_cast at htar ⊢
              omega)]
            rw [if_neg htar, l6 (y' * (8 * R) + x')]
            rw [if_neg (show ¬(8 * rowbase ≤ y' * (8 * R) + x' ∧
                y' * (8 * R) + x' < 8 * rowbase + W ∧
                xStart ≤ ((y' * (8 * R) + x' - 8 * rowbase : Nat) : Int) ∧
                ((y' * (8 * R) + x' - 8 * rowbase : Nat) : Int) <
                  xStart + ((xEnd - xStart).toNat : Int)) from
              fun hcon => hrowne ⟨hcon.1, hcon.2.1⟩)]

theorem colorBit_readback (c : BinaryColor) :
    (if colorBit c then BinaryColor.On else .Off) = c := by
  cases c <;> rfl

/-- C3 counterexample: on an 8x8 buffer, `fill_contiguous` over a 2x2 area
    lying entirely outside the bounds, given exactly 2*2 = 4 colors (so the
    sequence is not exhausted), consumes no color at all — the whole
    sequence remains — where the claim requires exactly width*height = 4
    colors to be consumed, one per (out-of-bounds) position. -/
theorem fill_contiguous_claim_counterexample :
    ((BinaryBuffer.new ⟨8, 8⟩).fillContiguous ⟨⟨100, 100⟩, ⟨2, 2⟩⟩
        [.On, .On, .On, .On]).2 = [BinaryColor.On, .On, .On, .On] ∧
    [BinaryColor.On, .On, .On, .On].length = 2 * 2 := by
  constructor
  · decide
  · decide

/-- C3 (amended): when the area does not intersect the bitmap bounds at all,
    `fill_contiguous` returns immediately, consuming no colors and writing
    nothing. Otherwise, given at least width(area)*height(area) colors, it
    walks `area` in row-major order consuming exactly one color per
    position — out-of-bounds positions included — so exactly
    width(area)*height(area) colors are consumed, and each in-bounds
    position of `area` receives its row-major color while every other pixel
    is untouched. -/
theorem fill_contiguous_spec :
    ∀ (buf : BinaryBuffer) (area : Rectangle) (colors : List BinaryColor), buf.wf →
      (((buf.boundingBox.intersection area).size.width = 0 ∨
          (buf.boundingBox.intersection area).size.height = 0) →
        buf.fillContiguous area colors = (buf, colors)) ∧
      (¬((buf.boundingBox.intersection area).size.width = 0 ∨
          (buf.boundingBox.intersection area).size.height = 0) →
        area.size.width * area.size.height ≤ colors.length →
        (buf.fillContiguous area colors).2 =
          colors.drop (area.size.width * area.size.height) ∧
        (buf.fillContiguous area colors).1.size = buf.size ∧
        (buf.fillContiguous area colors).1.bytesPerRow = buf.bytesPerRow ∧
        (buf.fillContiguous area colors).1.data.length = buf.data.length ∧
        ∀ x y : Nat, x < buf.size.width → y < buf.size.height →
          (buf.fillContiguous area colors).1.getPixel x y =
            if area.containsPt ⟨x, y⟩ then
              colors.getD
                ((((y : Int) - area.topLeft.y) * (area.size.width : Int) +
                  ((x : Int) - area.topLeft.x)).toNat) .Off
            else buf.getPixel x y) := by
  intro buf area colors hwf
  have hbbi : buf.boundingBox.intersection area =
      (Rectangle.mk ⟨0, 0⟩ buf.size).intersection area := rfl
  obtain ⟨hw8, hbpr, hlen, -⟩ := hwf
  constructor
  · intro he
    rw [hbbi] at he
    simp only [BinaryBuffer.fillContiguous]
    rw [hbbi, if_pos he]
  · intro he hcols
    rw [hbbi] at he
    obtain ⟨ht1, ht2, ht3, ht4, hiff⟩ := intersection_nonempty_spec buf.size area he
    have hwneq : ¬ ((Rectangle.mk ⟨0, 0⟩ buf.size).intersection area).size.width = 0 ∧
        ¬ ((Rectangle.mk ⟨0, 0⟩ buf.size).intersection area).size.height = 0 := by
      constructor <;> intro hz <;> exact he (by omega)
    -- a witness point of the intersection gives the x/y range side conditions
    have hx0 : ((Rectangle.mk ⟨0, 0⟩ buf.size).intersection area).topLeft.x.toNat <
        buf.size.width := by omega
    have hy0 : ((Rectangle.mk ⟨0, 0⟩ buf.size).intersection area).topLeft.y.toNat <
        buf.size.height := by omega
    have hmem := (hiff _ _ hx0 hy0).mpr ⟨le_refl _, by omega, le_refl _, by omega⟩
    have hc1 : area.topLeft.x ≤
        (((Rectangle.mk ⟨0, 0⟩ buf.size).intersection area).topLeft.x.toNat : Int) := hmem.1
    have hc2 : (((Rectangle.mk ⟨0, 0⟩ buf.size).intersection area).topLeft.x.toNat : Int) <
        area.topLeft.x + area.size.width := hmem.2.1
    have hc3 : area.topLeft.y ≤
        (((Rectangle.mk ⟨0, 0⟩ buf.size).intersection area).topLeft.y.toNat : Int) := hmem.2.2.1
    have hc4 : (((Rectangle.mk ⟨0, 0⟩ buf.size).intersection area).topLeft.y.toNat : Int) <
        area.topLeft.y + area.size.height := hmem.2.2.2
    have hW : buf.size.width = 8 * buf.bytesPerRow := by omega
    have hfuel : (area.topLeft.y + (area.size.height : Int) - area.topLeft.y).toNat =
        area.size.height := by omega
    have hfill : buf.fillContiguous area colors =
        ({ buf with
            data := (fillContigRows buf.size.width buf.size.height area.topLeft.x
              (area.topLeft.x + area.size.width) ((max area.topLeft.x 0).toNat / 8)
              (buf.bytesPerRow -
                (min (area.topLeft.x + area.size.width) (buf.size.width : Int)).toNat / 8)
              buf.data colors ((max area.topLeft.y 0).toNat * buf.bytesPerRow)
              area.topLeft.y
              (area.topLeft.y + (area.size.height : Int) - area.topLeft.y).toNat).1 },
          (fillContigRows buf.size.width buf.size.height area.topLeft.x
            (area.topLeft.x + area.size.width) ((max area.topLeft.x 0).toNat / 8)
            (buf.bytesPerRow -
              (min (area.topLeft.x + area.size.width) (buf.size.width : Int)).toNat / 8)
            buf.data colors ((max area.topLeft.y 0).toNat * buf.bytesPerRow)
            area.topLeft.y
            (area.topLeft.y + (area.size.height : Int) - area.topLeft.y).toNat).2) := by
      simp only [BinaryBuffer.fillContiguous]
      rw [hbbi, if_neg he]
    obtain ⟨L1, L2, L3⟩ := fillContigRows_spec buf.size.width buf.size.height
      buf.bytesPerRow hW area.topLeft.x (area.topLeft.x + area.size.width)
      (by omega) (by omega) (by omega)
      (area.topLeft.y + (area.size.height : Int) - area.topLeft.y).toNat buf.data colors
      ((max area.topLeft.y 0).toNat * buf.bytesPerRow) area.topLeft.y
      (by
        have hpr : (area.topLeft.x + (area.size.width : Int) -
            area.topLeft.x).toNat = area.size.width := by omega
        rw [hfuel, hpr]
        have hcm : area.size.height * area.size.width =
            area.size.width * area.size.height := Nat.mul_comm ..
        omega)
      (by
        congr 1
        omega)
      (by omega)
    refine ⟨?_, by rw [hfill], by rw [hfill], ?_, fun x y hx hy => ?_⟩
    · rw [hfill]
      show (fillContigRows _ _ _ _ _ _ _ _ _ _ _).2 = _
      rw [L2]
      congr 1
      have hpr : (area.topLeft.x + (area.size.width : Int) - area.topLeft.x).toNat =
          area.size.width := by omega
      rw [hfuel, hpr]
      exact Nat.mul_comm ..
    · rw [hfill]
      show (fillContigRows _ _ _ _ _ _ _ _ _ _ _).1.length = _
      rw [L1]
    · rw [hfill, getPixel_eq_getBitAbs]
      dsimp only
      rw [pixelAddr_eq]
      rw [L3 x y hx hy]
      have hpr : area.topLeft.x + (area.size.width : Int) - area.topLeft.x =
          (area.size.width : Int) := by ring
      by_cases hc : area.containsPt ⟨x, y⟩
      · have hcc1 : area.topLeft.x ≤ (x : Int) := hc.1
        have hcc2 : (x : Int) < area.topLeft.x + area.size.width := hc.2.1
        have hcc3 : area.topLeft.y ≤ (y : Int) := hc.2.2.1
        have hcc4 : (y : Int) < area.topLeft.y + area.size.height := hc.2.2.2
        rw [if_pos (show area.topLeft.y ≤ (y : Int) ∧
            (y : Int) < area.topLeft.y +
              ((area.topLeft.y + (area.size.height : Int) - area.topLeft.y).toNat : Int) ∧
            area.topLeft.x ≤ (x : Int) ∧
            (x : Int) < area.topLeft.x + area.size.width from by
          rw [hfuel]
          exact ⟨hcc3, by omega, hcc1, hcc2⟩)]
        rw [if_pos hc]
        have hidx : (((y : Int) - area.topLeft.y) *
              (area.topLeft.x + (area.size.width : Int) - area.topLeft.x) +
            ((x : Int) - area.topLeft.x)).toNat =
            (((y : Int) - area.topLeft.y) * (area.size.width : Int) +
              ((x : Int) - area.topLeft.x)).toNat := by
          rw [hpr]
        rw [hidx, colorBit_readback]
      · have hnc : ¬(area.topLeft.y ≤ (y : Int) ∧
            (y : Int) < area.topLeft.y +
              ((area.topLeft.y + (area.size.height : Int) - area.topLeft.y).toNat : Int) ∧
            area.topLeft.x ≤ (x : Int) ∧
            (x : Int) < area.topLeft.x + area.size.width) := by
          rw [hfuel]
          intro hcon
          exact hc ⟨hcon.2.2.1, hcon.2.2.2, hcon.1,
            (by omega : (y : Int) < area.topLeft.y + area.size.height)⟩
        rw [if_neg hnc, if_neg hc, getPixel_eq_getBitAbs buf x y, pixelAddr_eq]

/-- Witness for C3's amended theorem: an 8x2 buffer, a 2x2 area overlapping
    at its right edge, six colors supplied for the four walked cells. -/
theorem fill_contiguous_spec_witness :
    ((BinaryBuffer.new ⟨8, 2⟩).fillContiguous ⟨⟨7, 0⟩, ⟨2, 2⟩⟩
        [.On, .Off, .On, .Off, .On, .Off]).2 =
      ([BinaryColor.On, .Off, .On, .Off, .On, .Off].drop (2 * 2)) ∧
    ((BinaryBuffer.new ⟨8, 2⟩).fillContiguous ⟨⟨7, 0⟩, ⟨2, 2⟩⟩
        [.On, .Off, .On, .Off, .On, .Off]).1.size = (BinaryBuffer.new ⟨8, 2⟩).size ∧
    ((BinaryBuffer.new ⟨8, 2⟩).fillContiguous ⟨⟨7, 0⟩, ⟨2, 2⟩⟩
        [.On, .Off, .On, .Off, .On, .Off]).1.bytesPerRow =
      (BinaryBuffer.new ⟨8, 2⟩).bytesPerRow ∧
    ((BinaryBuffer.new ⟨8, 2⟩).fillContiguous ⟨⟨7, 0⟩, ⟨2, 2⟩⟩
        [.On, .Off, .On, .Off, .On, .Off]).1.data.length =
      (BinaryBuffer.new ⟨8, 2⟩).data.length ∧
    ∀ x y : Nat, x < (BinaryBuffer.new ⟨8, 2⟩).size.width →
      y < (BinaryBuffer.new ⟨8, 2⟩).size.height →
      ((BinaryBuffer.new ⟨8, 2⟩).fillContiguous ⟨⟨7, 0⟩, ⟨2, 2⟩⟩
          [.On, .Off, .On, .Off, .On, .Off]).1.getPixel x y =
        if (Rectangle.mk ⟨7, 0⟩ ⟨2, 2⟩).containsPt ⟨x, y⟩ then
          [BinaryColor.On, .Off, .On, .Off, .On, .Off].getD
            ((((y : Int) - 0) * ((2 : Nat) : Int) + ((x : Int) - 7)).toNat) .Off
        else (BinaryBuffer.new ⟨8, 2⟩).getPixel x y :=
  (fill_contiguous_spec (BinaryBuffer.new ⟨8, 2⟩) ⟨⟨7, 0⟩, ⟨2, 2⟩⟩
    [.On, .Off, .On, .Off, .On, .Off] (by decide)).2 (by decide) (by decide)

end Epd
